import Mathlib

/-!
Verification of the SRT two-way transformation tool (srt_common.py,
srt_corrector.py, srt_restorer.py).

Strings of the Python source are modelled as `List Char` (a Python `str` is a
sequence of Unicode code points).  The external model collaborator
(`client.chat.completions.create` followed by `json.loads` on the reply) is
modelled as a function from the call position and the two prompt strings to
either `none` — the call raised, or its reply did not parse as a JSON object
of strings — or `some m`, the parsed JSON-object reply as an association
list of string keys to string values.  The per-batch `try/except` of the
source is the `Option`-match on that result: `none` takes the fallback path
that copies the batch unchanged, which also makes the embedded transform a
total function (no exception escapes a batch).
-/

/-- Python's whitespace predicate (the character class stripped by
`str.strip()` with no arguments), by code point. -/
def isPySpace (c : Char) : Bool :=
  c.toNat = 32 || c.toNat = 9 || c.toNat = 10 || c.toNat = 11 || c.toNat = 12 ||
  c.toNat = 13 || (28 ≤ c.toNat && c.toNat ≤ 31) || c.toNat = 133 || c.toNat = 160 ||
  c.toNat = 5760 || (8192 ≤ c.toNat && c.toNat ≤ 8202) || c.toNat = 8232 ||
  c.toNat = 8233 || c.toNat = 8239 || c.toNat = 8287 || c.toNat = 12288

/-- Right-strip: `s.rstrip()`. -/
def pyRStrip (s : List Char) : List Char :=
  (s.reverse.dropWhile isPySpace).reverse

/-- Python `s.strip()`: drop whitespace from both ends. -/
def pyStrip (s : List Char) : List Char :=
  pyRStrip (s.dropWhile isPySpace)

/-- Prepend a character to the first component of a nonempty list of
components (used by the splitters below). -/
def consHead (c : Char) : List (List Char) → List (List Char)
  | [] => [[c]]
  | l :: ls => (c :: l) :: ls

/-- Python `s.split('\n')`: split on every newline; `"".split('\n') == [""]`. -/
def splitNl : List Char → List (List Char)
  | [] => [[]]
  | c :: rest => if c = '\n' then [] :: splitNl rest else consHead c (splitNl rest)

/-- Python `re.split(r'\n\n+', s)`: split on each maximal run of two or more
newlines (the regex is greedy, so a whole run of newlines is one separator). -/
def splitBlocks : List Char → List (List Char)
  | [] => [[]]
  | c :: rest =>
    if c = '\n' ∧ rest.head? = some '\n' then
      [] :: splitBlocks (rest.tail.dropWhile (fun x => x = '\n'))
    else
      consHead c (splitBlocks rest)
termination_by s => s.length
decreasing_by
  · exact Nat.lt_succ_of_le (le_trans (List.IsSuffix.length_le (List.dropWhile_suffix _))
      (le_trans (List.length_tail _ ▸ Nat.sub_le _ _) (Nat.le_refl _)))
  · exact Nat.lt_succ_self _

/-- Python `sep.join(parts)`. -/
def joinSep (sep : List Char) : List (List Char) → List Char
  | [] => []
  | [x] => x
  | x :: y :: xs => x ++ sep ++ joinSep sep (y :: xs)

/-- `'\n'.join(parts)`. -/
def joinNl (parts : List (List Char)) : List Char := joinSep ['\n'] parts

/-- Decimal digit characters used by `str(n)`. -/
def digitChar : Nat → Char
  | 0 => '0' | 1 => '1' | 2 => '2' | 3 => '3' | 4 => '4'
  | 5 => '5' | 6 => '6' | 7 => '7' | 8 => '8' | _ => '9'

/-- Decimal digit accumulation for `str(n)`, with enough fuel to exhaust the
number (structurally recursive so that concrete values compute). -/
def natReprGo : Nat → Nat → List Char → List Char
  | 0, _, acc => acc
  | fuel + 1, n, acc =>
    if n = 0 then acc else natReprGo fuel (n / 10) (digitChar (n % 10) :: acc)

/-- Python `str(n)` for a natural number. -/
def natRepr (n : Nat) : List Char :=
  if n = 0 then ['0'] else natReprGo n n []

/-- Python `str(i)` for an integer. -/
def intRepr : Int → List Char
  | Int.ofNat n => natRepr n
  | Int.negSucc m => '-' :: natRepr (m + 1)

/-- The digit run of a Python integer literal: one or more ASCII digits with
single underscores allowed between digits, accumulated left to right.
(Python's `int()` also accepts non-ASCII decimal digits; those are not
modelled — the files at hand only ever produce ASCII digits.) -/
def digitsValAux : Nat → List Char → Option Nat
  | acc, [] => some acc
  | acc, c :: rest =>
    if c = '_' then
      match rest with
      | [] => none
      | c2 :: rest2 =>
        if c2.isDigit then digitsValAux (10 * acc + (c2.toNat - 48)) rest2 else none
    else
      if c.isDigit then digitsValAux (10 * acc + (c.toNat - 48)) rest else none

/-- The digit run must be nonempty and must not start with an underscore. -/
def digitsVal : List Char → Option Nat
  | [] => none
  | c :: rest => if c.isDigit then digitsValAux (c.toNat - 48) rest else none

/-- Python `int(s)` after whitespace stripping: optional sign, then digits. -/
def pyIntCore : List Char → Option Int
  | [] => none
  | c :: rest =>
    if c = '-' then (digitsVal rest).map (fun n => -(n : Int))
    else if c = '+' then (digitsVal rest).map (fun n => (n : Int))
    else (digitsVal (c :: rest)).map (fun n => (n : Int))

/-- Python `int(s)`: `some i` when `int(s)` returns `i`, `none` when it raises
`ValueError`. -/
def pyInt? (s : List Char) : Option Int := pyIntCore (pyStrip s)

/-- One subtitle record, the dict `{"index": ..., "timestamp": ..., "text": ...}`
built by `parse_srt`. -/
structure SubtitleEntry where
  index : Int
  timestamp : List Char
  text : List Char
deriving Repr, DecidableEq

instance : Inhabited SubtitleEntry := ⟨⟨0, [], []⟩⟩

/-- `parse_srt` (srt_common.py): split the stripped content on blank-line
runs; for each block, strip it, split into lines, and when there are at least
two lines and the first parses as an integer, append an entry whose timestamp
is the second line and whose text joins the remaining lines with newlines;
a block whose first line raises `ValueError` is skipped.  The loop appends to
a list, modelled with `foldl` and list append. -/
def parse_srt (content : List Char) : List SubtitleEntry :=
  (splitBlocks (pyStrip content)).foldl
    (fun entries block =>
      match splitNl (pyStrip block) with
      | l0 :: l1 :: rest =>
        match pyInt? l0 with
        | some index => entries ++ [{ index := index, timestamp := l1, text := joinNl rest }]
        | none => entries
      | _ => entries)
    []

/-- `build_srt` (srt_common.py): emit index, timestamp, text and an empty
separator element per entry, then join everything with newlines. -/
def build_srt (entries : List SubtitleEntry) : List Char :=
  joinNl (entries.foldl
    (fun result e => result ++ [intRepr e.index, e.timestamp, e.text, []]) [])

/-- `get_full_context` (srt_common.py): join all entry texts with spaces. -/
def get_full_context (entries : List SubtitleEntry) : List Char :=
  joinSep [' '] (entries.map (fun e => e.text))

/-- The rule set (correction_rules.json).  The source keeps it as a loosely
typed dict whose four keys may be absent and are always read through
`.get`/`.setdefault` with empty defaults, so an absent key behaves exactly
like an empty one; the embedding therefore uses total fields, with Python's
insertion-ordered dicts as association lists. -/
structure Rules where
  term_corrections : List (List Char × List Char)
  context_hints : List (List Char)
  custom_rules : List (List Char)
  reading_examples : List (List Char × List Char)
deriving Repr, DecidableEq

/-- Python dict assignment `d[k] = v`: overwrite in place when the key is
present, append otherwise. -/
def dictInsert : List (List Char × List Char) → List Char → List Char → List (List Char × List Char)
  | [], k, v => [(k, v)]
  | (k', v') :: rest, k, v =>
    if k' = k then (k, v) :: rest else (k', v') :: dictInsert rest k v

/-- Python dict / association-list lookup (`k in d` plus `d[k]`). -/
def lookupKV : List (List Char × List Char) → List Char → Option (List Char)
  | [], _ => none
  | (k', v') :: rest, k => if k' = k then some v' else lookupKV rest k

/-- Python `del d[k]`: remove the first (in a dict: the only) binding of `k`. -/
def dictRemove : List (List Char × List Char) → List Char → List (List Char × List Char)
  | [], _ => []
  | (k', v') :: rest, k => if k' = k then rest else (k', v') :: dictRemove rest k

/-- Python `list.remove(x)`: remove the first occurrence. -/
def listRemove : List (List Char) → List Char → List (List Char)
  | [], _ => []
  | x :: rest, k => if x = k then rest else x :: listRemove rest k

/-- The built-in default rule set returned by `load_rules` when the rules
file is absent (srt_common.py). -/
def defaultRules : Rules where
  term_corrections := []
  context_hints :=
    [ "この講義はRAG（Retrieval-Augmented Generation）に関する内容です。".toList,
      "AI、機械学習、自然言語処理関連の用語が頻繁に登場します。".toList ]
  custom_rules :=
    [ "数字に複数の読み方がある場合は、実際に発音されるひらがなに変換する".toList,
      "漢字に複数の読み方がある場合は、文脈に合ったひらがなに変換する".toList ]
  reading_examples :=
    [ ("42".toList, "よんじゅうに".toList),
      ("7日".toList, "なのか".toList),
      ("1人".toList, "ひとり".toList) ]

/-- `load_rules` (srt_common.py): the stored rules file when it exists, the
built-in defaults otherwise.  The file system state is the `Option Rules`
argument. -/
def load_rules (stored : Option Rules) : Rules := stored.getD defaultRules

/-- The four `rule_type` strings accepted by `add_rule` / `remove_rule`. -/
inductive RuleType | term | hint | custom | reading
deriving Repr, DecidableEq

/-- `add_rule` (srt_common.py): load, mutate one field, then persist and
return the whole rule set (`save_rules(rules); return rules` — the returned
value is exactly what is written to disk, wholesale). -/
def add_rule (rt : RuleType) (key : List Char) (value : List Char) (stored : Option Rules) : Rules :=
  let rules := load_rules stored
  match rt with
  | RuleType.term =>
    { rules with term_corrections := dictInsert rules.term_corrections key value }
  | RuleType.hint =>
    if key ∈ rules.context_hints then rules
    else { rules with context_hints := rules.context_hints ++ [key] }
  | RuleType.custom =>
    if key ∈ rules.custom_rules then rules
    else { rules with custom_rules := rules.custom_rules ++ [key] }
  | RuleType.reading =>
    { rules with reading_examples := dictInsert rules.reading_examples key value }

/-- `remove_rule` (srt_common.py): load, delete the key from the targeted
field when present (each branch is guarded by a membership test), then
persist and return the whole rule set. -/
def remove_rule (rt : RuleType) (key : List Char) (stored : Option Rules) : Rules :=
  let rules := load_rules stored
  match rt with
  | RuleType.term =>
    if (lookupKV rules.term_corrections key).isSome then
      { rules with term_corrections := dictRemove rules.term_corrections key }
    else rules
  | RuleType.hint =>
    if key ∈ rules.context_hints then
      { rules with context_hints := listRemove rules.context_hints key }
    else rules
  | RuleType.custom =>
    if key ∈ rules.custom_rules then
      { rules with custom_rules := listRemove rules.custom_rules key }
    else rules
  | RuleType.reading =>
    if (lookupKV rules.reading_examples key).isSome then
      { rules with reading_examples := dictRemove rules.reading_examples key }
    else rules

/-- Does `s` start with `pat`? -/
def listStartsWith : List Char → List Char → Bool
  | [], _ => true
  | _ :: _, [] => false
  | p :: ps, c :: cs => p = c && listStartsWith ps cs

/-- Python `text.replace(old, new)` for nonempty `old`: replace every
non-overlapping occurrence, scanning left to right. -/
def replaceCore (old new : List Char) : List Char → List Char
  | [] => []
  | c :: rest =>
    if listStartsWith old (c :: rest) then
      new ++ replaceCore old new (rest.drop (old.length - 1))
    else
      c :: replaceCore old new rest
termination_by s => s.length
decreasing_by
  · simp only [List.length_drop, List.length_cons]
    omega
  · exact Nat.lt_succ_self _

/-- Python `text.replace(old, new)`.  An empty `old` inserts `new` before
every character and at the end (CPython's documented behaviour). -/
def pyReplace (s old new : List Char) : List Char :=
  match old with
  | [] => new ++ s.foldr (fun c acc => c :: (new ++ acc)) []
  | _ :: _ => replaceCore old new s

/-- `apply_term_corrections` (srt_corrector.py): chain `text.replace(wrong,
correct)` over the term-correction dict in insertion order. -/
def apply_term_corrections (text : List Char) (rules : Rules) : List Char :=
  rules.term_corrections.foldl (fun t wc => pyReplace t wc.1 wc.2) text

/-- Two-digit lowercase hex of a code point below 256, for `\u00XX` escapes. -/
def hexDigit (n : Nat) : Char :=
  if n < 10 then digitChar n
  else if n = 10 then 'a' else if n = 11 then 'b' else if n = 12 then 'c'
  else if n = 13 then 'd' else if n = 14 then 'e' else 'f'

/-- `json.dumps` escaping of one character with `ensure_ascii=False`:
backslash, double quote and control characters are escaped, everything else
(including non-ASCII) is emitted verbatim. -/
def jsonEscChar (c : Char) : List Char :=
  if c = '"' then ['\\', '"']
  else if c = '\\' then ['\\', '\\']
  else if c = '\n' then ['\\', 'n']
  else if c = '\t' then ['\\', 't']
  else if c = '\r' then ['\\', 'r']
  else if c.toNat = 8 then ['\\', 'b']
  else if c.toNat = 12 then ['\\', 'f']
  else if c.toNat < 32 then
    ['\\', 'u', '0', '0', hexDigit (c.toNat / 16), hexDigit (c.toNat % 16)]
  else [c]

/-- A JSON string literal with `ensure_ascii=False`. -/
def jsonStr (s : List Char) : List Char :=
  '"' :: (s.foldr (fun c acc => jsonEscChar c ++ acc) ['"'])

/-- `json.dumps(d, ensure_ascii=False, indent=2)` for a dict of strings:
`"\x7b\x7d"` when empty, otherwise one `  "k": "v"` line per item, the items
separated by `,\n`, wrapped in braces on their own lines. -/
def jsonDumpDict (d : List (List Char × List Char)) : List Char :=
  match d with
  | [] => "\x7b\x7d".toList
  | _ =>
    "\x7b\n".toList ++
    joinSep ",\n".toList
      (d.map (fun kv => "  ".toList ++ jsonStr kv.1 ++ ": ".toList ++ jsonStr kv.2)) ++
    "\n\x7d".toList

/-- Corrector system-prompt template, up to the `{full_context[:3000]}` slot
(srt_corrector.py). -/
def cSys1 : List Char :=
  "あなたは日本語字幕の校正専門家です。\n\n## 作業目標\n日本語テキストをそのまま維持しつつ、**複数の読み方（発音）が可能な数字や漢字**のみを\n実際の音声で発音される**ひらがなまたはカタカナ**に変換します。\n\n## 全体の文脈\n".toList

/-- Corrector template between the context and `{context_hints}` slots. -/
def cSys2 : List Char := "\n\n## 文脈ヒント\n".toList

/-- Corrector template between the hints and `{custom_rules}` slots. -/
def cSys3 : List Char := "\n\n## 変換ルール\n".toList

/-- Corrector template between the rules and `{reading_examples}` slots. -/
def cSys4 : List Char := "\n\n## 読み方の例\n".toList

/-- Corrector template after the reading-examples slot (the `詳細指示` and
`応答形式` sections; `\x7b\x7d` denote the literal braces written `{{`/`}}`
in the f-string). -/
def cSys5 : List Char :=
  "\n\n## 詳細指示\n1. **日本語はそのまま維持**: 翻訳しないでください。日本語テキストをそのまま出力します。\n2. **複数の読み方がある場合のみ変換**:\n   - 数字: 42 → よんじゅうに, 1,750億 → せんななひゃくごじゅうおく\n   - カンマ区切りの数字: 2,000 → にせん (カンマを無視)\n   - 漢字: 複数の音読み/訓読みがある場合、文脈に合った読み方で\n   - 日付: 7日 → なのか, 1日 → ついたち\n   - 人数: 1人 → ひとり, 2人 → ふたり\n3. **読み方が明確なものはそのまま維持**: 無理にひらがなに変換する必要なし\n4. **音声認識エラーの修正**:\n   - 「Face」「フェイス」→「Faiss」（ベクトル検索ライブラリ）\n   - 「GPT 4」→「ジーピーティーフォー」\n   - 「3090」「さんぜんきゅうじゅう」→「さんまるきゅうまる」（GPU型番）\n   - 「Word to Mac」→「Word2Vec」\n5. **技術用語は正確に**: AI/ML関連の専門用語は正しい表記に修正\n6. **韓国語（ハングル）の処理**:\n   - ハングル文字が混在している場合は、前後の文脈から適切な日本語に翻訳\n   - 例: \"ホワイト 해설 액ト\" → \"Pytesseract\"\n\n## 応答形式\nJSON形式: \x7b\"1\": \"校正されたテキスト1\", \"2\": \"校正されたテキスト2\", ...\x7d\n".toList

/-- The corrector's `system_prompt` f-string: template text around the
`full_context[:3000]`, joined context hints, joined custom rules, and
JSON-dumped reading examples. -/
def correctSystemPrompt (entries : List SubtitleEntry) (rules : Rules) : List Char :=
  cSys1 ++ (get_full_context entries).take 3000 ++
  cSys2 ++ joinNl rules.context_hints ++
  cSys3 ++ joinNl rules.custom_rules ++
  cSys4 ++ jsonDumpDict rules.reading_examples ++ cSys5

/-- Restorer system-prompt template, up to the `{full_context[:3000]}` slot
(srt_restorer.py). -/
def rSys1 : List Char :=
  "あなたは日本語字幕の復元専門家です。\n\n## 作業目標\nひらがなやカタカナで表記されている部分を、**適切な漢字や数字**に戻します。\n\n## 全体の文脈\n".toList

/-- Restorer template between the context and `{context_hints}` slots. -/
def rSys2 : List Char := "\n\n## 文脈ヒント\n".toList

/-- Restorer template between the hints and `{reading_examples}` slots. -/
def rSys3 : List Char := "\n\n## 読み方の例（逆変換の参考）\n".toList

/-- Restorer template after the reading-examples slot. -/
def rSys4 : List Char :=
  "\n\n## 詳細指示\n1. **ひらがな→漢字**: 文脈に合った適切な漢字に変換\n   - 例: ひょうやず → 表や図\n   - 例: もとに → 基に\n2. **ひらがな→数字**: 数字で表記すべき部分は数字に戻す\n   - 例: よんじゅうに → 42\n   - 例: せんななひゃくごじゅうおく → 1,750億\n3. **カタカナ→英数字**: 技術用語は元の表記に戻す\n   - 例: ワードツーベック → Word2Vec\n   - 例: ジーピーティーフォー → GPT-4\n   - 例: さんまるきゅうまる → 3090\n4. **そのまま維持**: すでに適切な表記は変更しない\n5. **日本語を維持**: 翻訳はせず、日本語テキストとして出力\n\n## 応答形式\nJSON形式: \x7b\"1\": \"復元されたテキスト1\", \"2\": \"復元されたテキスト2\", ...\x7d\n".toList

/-- The restorer's `system_prompt` f-string (no custom-rules slot). -/
def restoreSystemPrompt (entries : List SubtitleEntry) (rules : Rules) : List Char :=
  rSys1 ++ (get_full_context entries).take 3000 ++
  rSys2 ++ joinNl rules.context_hints ++
  rSys3 ++ jsonDumpDict rules.reading_examples ++ rSys4

/-- Corrector user-prompt template before the `{json.dumps(batch_texts, ...)}`
slot. -/
def cUser1 : List Char :=
  "以下の日本語字幕を校正してください。\n複数の発音が可能な数字/漢字のみひらがな/カタカナに変換し、その他はそのまま維持してください。\n\n".toList

/-- Corrector user-prompt template after the payload slot. -/
def cUser2 : List Char := "\n\nJSON形式で校正されたテキストのみ応答してください。".toList

/-- The corrector's per-batch `user_prompt`. -/
def correctUserPrompt (payload : List (List Char × List Char)) : List Char :=
  cUser1 ++ jsonDumpDict payload ++ cUser2

/-- Restorer user-prompt template before the payload slot. -/
def rUser1 : List Char :=
  "以下の日本語字幕を元の表記に復元してください。\nひらがな/カタカナを適切な漢字/数字/英字に戻してください。\n\n".toList

/-- Restorer user-prompt template after the payload slot. -/
def rUser2 : List Char := "\n\nJSON形式で復元されたテキストのみ応答してください。".toList

/-- The restorer's per-batch `user_prompt`. -/
def restoreUserPrompt (payload : List (List Char × List Char)) : List Char :=
  rUser1 ++ jsonDumpDict payload ++ rUser2

/-- A restricted view of the external model collaborator: from the number of
the batch being processed and the system and user prompt of the call, either
the reply parsed as a JSON object of strings (`some`), or a failure (`none`:
the request raised, or its reply did not parse as a JSON object).  The real
collaborator is a remote service and may answer differently on different
calls, hence the position argument.  A reply that parses as a JSON object
carrying *non-string* values falls outside this type — it makes the merge
loop raise mid-iteration, behaving like neither branch; that reply space is
modelled by `ModelOracleJ` and the `J` engine below, and theorems quantified
over `ModelOracle` cover exactly the failure-or-object-of-strings
behaviours. -/
def ModelOracle : Type :=
  Nat → List Char → List Char → Option (List (List Char × List Char))

/-- The `batch_texts` dict of one batch: every entry whose text strips to
nonempty contributes `str(entry['index']) ↦ entry['text']`, in batch order
with dict-update semantics. -/
def batchPayload (batch : List SubtitleEntry) : List (List Char × List Char) :=
  batch.foldl
    (fun d e => if pyStrip e.text ≠ [] then dictInsert d (intRepr e.index) e.text else d)
    []

/-- The merge step for one entry of a batch (the body of the
`for entry in batch` loop after a successful call): when the entry's string
index is a key of the parsed reply, replace its text with that key's value
run through the direction's local post-pass; otherwise keep the entry.
`new_entry = entry.copy()` makes this a value-level update. -/
def mergeEntry (post : Rules → List Char → List Char) (rules : Rules)
    (corrections : List (List Char × List Char)) (e : SubtitleEntry) : SubtitleEntry :=
  match lookupKV corrections (intRepr e.index) with
  | some t => { e with text := post rules t }
  | none => e

/-- One direction of the engine: its two prompt builders and its local
post-pass on replied text (term-correction substitution for the corrector,
nothing for the restorer). -/
structure SrtDirection where
  mkSystemPrompt : List SubtitleEntry → Rules → List Char
  mkUserPrompt : List (List Char × List Char) → List Char
  post : Rules → List Char → List Char

/-- The corrector direction (srt_corrector.py). -/
def correctDir : SrtDirection where
  mkSystemPrompt := correctSystemPrompt
  mkUserPrompt := correctUserPrompt
  post := fun rules t => apply_term_corrections t rules

/-- The restorer direction (srt_restorer.py). -/
def restoreDir : SrtDirection where
  mkSystemPrompt := restoreSystemPrompt
  mkUserPrompt := restoreUserPrompt
  post := fun _ t => t

/-- The body of one loop iteration of the batch engine, against the
restricted oracle: build `batch_texts`; if it is empty, pass the batch
through (copied) with no model call; otherwise call the model, and on a
parsed object-of-strings reply merge it into the batch, on a failure
(`except Exception` fired by the request or by `json.loads`, both before
the merge loop appends anything) fall back to the batch copied unchanged.
The remaining source behaviour — a reply object with a non-string value
raising *inside* the merge loop after partial appends — is not expressible
against `ModelOracle`; it is modelled faithfully by `runBatchJ` below. -/
def runBatch (dir : SrtDirection) (oracle : ModelOracle) (rules : Rules)
    (sys : List Char) (k : Nat) (batch : List SubtitleEntry) : List SubtitleEntry :=
  let payload := batchPayload batch
  if payload = [] then batch
  else
    match oracle k sys (dir.mkUserPrompt payload) with
    | some corrections => batch.map (mergeEntry dir.post rules corrections)
    | none => batch

/-- The engine loop `for batch_start in range(0, len(entries), batch_size)`:
process the first `batch_size` entries as batch number `k`, then continue
with the rest.  (`es.drop (batch_size - 1)` is `(e :: es).drop batch_size`
for positive `batch_size`; Python raises on `batch_size = 0`, which is
outside every claim.) -/
def runBatches (dir : SrtDirection) (oracle : ModelOracle) (rules : Rules)
    (sys : List Char) (batch_size : Nat) : Nat → List SubtitleEntry → List SubtitleEntry
  | _, [] => []
  | k, e :: es =>
    runBatch dir oracle rules sys k ((e :: es).take batch_size) ++
    runBatches dir oracle rules sys batch_size (k + 1) (es.drop (batch_size - 1))
termination_by _ l => l.length
decreasing_by
  simp only [List.length_drop, List.length_cons]
  omega

/-- `correct_readings_batch` (srt_corrector.py): build the system prompt once
from the whole document and the rules, then process the document in batches.
The `client` and `model` arguments of the source are absorbed into the
oracle; `temperature` and `response_format` only shape the oracle's
behaviour. -/
def correct_readings_batch (oracle : ModelOracle) (entries : List SubtitleEntry)
    (rules : Rules) (batch_size : Nat) : List SubtitleEntry :=
  runBatches correctDir oracle rules (correctSystemPrompt entries rules) batch_size 0 entries

/-- `restore_readings_batch` (srt_restorer.py): same loop with the restorer's
prompts and no local post-pass. -/
def restore_readings_batch (oracle : ModelOracle) (entries : List SubtitleEntry)
    (rules : Rules) (batch_size : Nat) : List SubtitleEntry :=
  runBatches restoreDir oracle rules (restoreSystemPrompt entries rules) batch_size 0 entries

/-- A JSON value of a parsed reply object: a string, or a non-string value
(represented by the integer case, the reachable representative).
`json.loads` happily returns objects whose values are not strings; the
merge loop then raises when it *reaches* such a value — slicing it in the
log line (`TypeError`) or `.replace`-ing it in the term post-pass
(`AttributeError`), in both sources past any inner guard — before the
current entry is appended. -/
inductive JVal where
  | jstr (s : List Char)
  | jint (n : Int)
deriving Repr, DecidableEq

/-- Association-list lookup in a parsed reply object over the full value
space. -/
def lookupJ : List (List Char × JVal) → List Char → Option JVal
  | [], _ => none
  | (k', v') :: rest, k => if k' = k then some v' else lookupJ rest k

/-- The external model collaborator over the full reply space: `none` is a
failed request or a reply that is not a JSON object; `some` carries the
parsed object, whose values may or may not all be strings. -/
def ModelOracleJ : Type :=
  Nat → List Char → List Char → Option (List (List Char × JVal))

/-- The merge loop over one batch for a parsed reply whose values may be
non-strings, following the source statement by statement: entries are
appended to the output one at a time (merged on a string-valued hit, copied
verbatim on a miss); reaching a non-string value raises before the current
entry is appended, stopping the loop and keeping what was already appended.
Returns the appended prefix and whether the loop raised. -/
def mergeRunJ (post : Rules → List Char → List Char) (rules : Rules)
    (corrections : List (List Char × JVal)) :
    List SubtitleEntry → List SubtitleEntry × Bool
  | [] => ([], false)
  | e :: rest =>
    match lookupJ corrections (intRepr e.index) with
    | some (JVal.jstr t) =>
      ({ e with text := post rules t } :: (mergeRunJ post rules corrections rest).1,
        (mergeRunJ post rules corrections rest).2)
    | some (JVal.jint _) => ([], true)
    | none =>
      (e :: (mergeRunJ post rules corrections rest).1,
        (mergeRunJ post rules corrections rest).2)

/-- One engine iteration over the full reply space: an empty payload skips
the call; a request/parse failure falls back to the whole batch copied; a
parsed reply runs the merge loop, and if the loop raised mid-iteration the
`except` handler extends the output with the whole batch again — *after*
the entries the loop had already appended. -/
def runBatchJ (dir : SrtDirection) (oracle : ModelOracleJ) (rules : Rules)
    (sys : List Char) (k : Nat) (batch : List SubtitleEntry) : List SubtitleEntry :=
  let payload := batchPayload batch
  if payload = [] then batch
  else
    match oracle k sys (dir.mkUserPrompt payload) with
    | some corrections =>
      let r := mergeRunJ dir.post rules corrections batch
      if r.2 then r.1 ++ batch else r.1
    | none => batch

/-- The engine loop over the full reply space. -/
def runBatchesJ (dir : SrtDirection) (oracle : ModelOracleJ) (rules : Rules)
    (sys : List Char) (batch_size : Nat) : Nat → List SubtitleEntry → List SubtitleEntry
  | _, [] => []
  | k, e :: es =>
    runBatchJ dir oracle rules sys k ((e :: es).take batch_size) ++
    runBatchesJ dir oracle rules sys batch_size (k + 1) (es.drop (batch_size - 1))
termination_by _ l => l.length
decreasing_by
  simp only [List.length_drop, List.length_cons]
  omega

/-- `correct_readings_batch` (srt_corrector.py) over the full reply
space. -/
def correct_readings_batchJ (oracle : ModelOracleJ) (entries : List SubtitleEntry)
    (rules : Rules) (batch_size : Nat) : List SubtitleEntry :=
  runBatchesJ correctDir oracle rules (correctSystemPrompt entries rules) batch_size 0 entries

/-- `restore_readings_batch` (srt_restorer.py) over the full reply space. -/
def restore_readings_batchJ (oracle : ModelOracleJ) (entries : List SubtitleEntry)
    (rules : Rules) (batch_size : Nat) : List SubtitleEntry :=
  runBatchesJ restoreDir oracle rules (restoreSystemPrompt entries rules) batch_size 0 entries

/-- Embed a string-valued reply object into the full value space. -/
def liftReply (r : List (List Char × List Char)) : List (List Char × JVal) :=
  r.map (fun kv => (kv.1, JVal.jstr kv.2))

/-- The oracles whose every reply is a failure or a JSON object of strings,
as a subset of the full reply space. -/
def liftOracle (o : ModelOracle) : ModelOracleJ :=
  fun k sys u => (o k sys u).map liftReply

/-- The batch partition induced by `range(0, len(entries), batch_size)` with
slicing: consecutive chunks of at most `b` entries, in order. -/
def chunks (b : Nat) : List SubtitleEntry → List (List SubtitleEntry)
  | [] => []
  | e :: es => (e :: es).take b :: chunks b (es.drop (b - 1))
termination_by l => l.length
decreasing_by
  simp only [List.length_drop, List.length_cons]
  omega

/-- The number of batches of a run. -/
def numBatches (b : Nat) (entries : List SubtitleEntry) : Nat :=
  (chunks b entries).length

/-- Strictly sequential processing of a batch list, numbering the batches
from `k`. -/
def seqProcess (dir : SrtDirection) (oracle : ModelOracle) (rules : Rules)
    (sys : List Char) (k : Nat) : List (List SubtitleEntry) → List SubtitleEntry
  | [] => []
  | batch :: rest =>
    runBatch dir oracle rules sys k batch ++ seqProcess dir oracle rules sys (k + 1) rest

/-- The acceptance rule for one SRT block as the specification states it:
a block is accepted exactly when it has at least 2 lines and its first line
parses as an integer; then line 2 is the timestamp and lines 3 onward joined
by newline are the text (empty when absent); rejected blocks yield nothing. -/
def parseBlockSpec (block : List Char) : Option SubtitleEntry :=
  let lines := splitNl (pyStrip block)
  if 2 ≤ lines.length ∧ (pyInt? (lines.getD 0 [])).isSome then
    some { index := ((pyInt? (lines.getD 0 [])).getD 0)
         , timestamp := lines.getD 1 []
         , text := joinNl (lines.drop 2) }
  else none

/-- A heap of subtitle-entry dicts: the address of a cell is its position.
Used to make the source's `entry.copy()` discipline observable: Python
entries are mutable dicts, and the claim that the transform never mutates
its input only makes sense against an explicit store. -/
abbrev PyHeap : Type := List SubtitleEntry

/-- Read the dict at address `a`. -/
def hRead (h : PyHeap) (a : Nat) : SubtitleEntry := List.getD h a default

/-- `entry.copy()` / fresh dict: allocate a new cell, returning its address. -/
def hAlloc (h : PyHeap) (e : SubtitleEntry) : PyHeap × Nat := (h ++ [e], h.length)

/-- `new_entry['text'] = t`: overwrite one field of the dict at address `a`. -/
def hWrite (h : PyHeap) (a : Nat) (e : SubtitleEntry) : PyHeap := h.set a e

/-- Heap version of the merge loop body for one entry address: allocate
`new_entry = entry.copy()`, then on a reply hit overwrite the copy's text
(never the original), and append the copy's address. -/
def mergeEntryH (post : Rules → List Char → List Char) (rules : Rules)
    (corrections : List (List Char × List Char)) (h : PyHeap) (a : Nat) : PyHeap × Nat :=
  let e := hRead h a
  let h1 := (hAlloc h e).1
  let a' := (hAlloc h e).2
  match lookupKV corrections (intRepr e.index) with
  | some t => (hWrite h1 a' { e with text := post rules t }, a')
  | none => (h1, a')

/-- Allocate copies of every cell of `batch` (the `[e.copy() for e in batch]`
fallback), returning the new addresses. -/
def copyBatchH (h : PyHeap) (batch : List Nat) : PyHeap × List Nat :=
  match batch with
  | [] => (h, [])
  | a :: rest =>
    let r := copyBatchH (hAlloc h (hRead h a)).1 rest
    (r.1, (hAlloc h (hRead h a)).2 :: r.2)

/-- Heap version of the merge loop over a whole batch. -/
def mergeBatchH (post : Rules → List Char → List Char) (rules : Rules)
    (corrections : List (List Char × List Char)) (h : PyHeap) (batch : List Nat) :
    PyHeap × List Nat :=
  match batch with
  | [] => (h, [])
  | a :: rest =>
    let r := mergeBatchH post rules corrections (mergeEntryH post rules corrections h a).1 rest
    (r.1, (mergeEntryH post rules corrections h a).2 :: r.2)

/-- Heap version of one engine iteration on a batch of addresses. -/
def runBatchH (dir : SrtDirection) (oracle : ModelOracle) (rules : Rules)
    (sys : List Char) (k : Nat) (h : PyHeap) (batch : List Nat) : PyHeap × List Nat :=
  let payload := batchPayload (batch.map (hRead h))
  if payload = [] then copyBatchH h batch
  else
    match oracle k sys (dir.mkUserPrompt payload) with
    | some corrections => mergeBatchH dir.post rules corrections h batch
    | none => copyBatchH h batch

/-- Heap version of the engine loop. -/
def runBatchesH (dir : SrtDirection) (oracle : ModelOracle) (rules : Rules)
    (sys : List Char) (batch_size : Nat) : Nat → PyHeap → List Nat → PyHeap × List Nat
  | _, h, [] => (h, [])
  | k, h, a :: as =>
    let r1 := runBatchH dir oracle rules sys k h ((a :: as).take batch_size)
    let r2 :=
      runBatchesH dir oracle rules sys batch_size (k + 1) r1.1 (as.drop (batch_size - 1))
    (r2.1, r1.2 ++ r2.2)
termination_by _ _ l => l.length
decreasing_by
  simp only [List.length_drop, List.length_cons]
  omega

/-- `correct_readings_batch` against the explicit store: the document is a
list of addresses into the heap. -/
def correct_readings_batchH (oracle : ModelOracle) (h : PyHeap) (addrs : List Nat)
    (rules : Rules) (batch_size : Nat) : PyHeap × List Nat :=
  runBatchesH correctDir oracle rules
    (correctSystemPrompt (addrs.map (hRead h)) rules) batch_size 0 h addrs

/-- `restore_readings_batch` against the explicit store. -/
def restore_readings_batchH (oracle : ModelOracle) (h : PyHeap) (addrs : List Nat)
    (rules : Rules) (batch_size : Nat) : PyHeap × List Nat :=
  runBatchesH restoreDir oracle rules
    (restoreSystemPrompt (addrs.map (hRead h)) rules) batch_size 0 h addrs

/-- Occurrence count of a string in a string list. -/
def countOcc (x : List Char) (l : List (List Char)) : Nat :=
  l.countP (fun y => y = x)

/-- The frame every engine output entry keeps relative to its input entry:
same index and same timestamp (only the text may differ). -/
def sameFrame (a b : SubtitleEntry) : Prop :=
  b.index = a.index ∧ b.timestamp = a.timestamp

/-- No character of `s` is a newline. -/
def nlFree (s : List Char) : Prop := ∀ c ∈ s, c ≠ '\n'

/-- `s` contains no two adjacent newlines. -/
def NoNN (s : List Char) : Prop :=
  List.Chain' (fun a b => ¬(a = '\n' ∧ b = '\n')) s

/-- The shape every entry produced by `parse_srt` has (the block was stripped
and split on single newlines): nonempty newline-free timestamp; text without
adjacent newlines, not starting with a newline, not ending in whitespace; and
when the text is empty the timestamp does not end in whitespace either. -/
def GoodEntry (e : SubtitleEntry) : Prop :=
  e.timestamp ≠ [] ∧ nlFree e.timestamp ∧
  NoNN e.text ∧ (∀ c ∈ e.text.head?, c ≠ '\n') ∧
  (∀ c ∈ e.text.getLast?, isPySpace c = false) ∧
  (e.text = [] → ∀ c ∈ e.timestamp.getLast?, isPySpace c = false)

/-- The serialized block of one entry, as it appears in `build_srt` output
(for an empty text the block is just the index and timestamp lines). -/
def blockOf (e : SubtitleEntry) : List Char :=
  intRepr e.index ++ '\n' :: e.timestamp ++ (if e.text = [] then [] else '\n' :: e.text)

/-- The newline run separating an entry's block from the next one in
`build_srt` output: an entry with empty text contributes an extra newline. -/
def sepNl (e : SubtitleEntry) : List Char :=
  if e.text = [] then ['\n', '\n', '\n'] else ['\n', '\n']

/-- `build_srt` output after the outer `strip`: the blocks joined by their
newline runs, with no trailing newline. -/
def interBlocks : List SubtitleEntry → List Char
  | [] => []
  | [e] => blockOf e
  | e :: e2 :: es => blockOf e ++ sepNl e ++ interBlocks (e2 :: es)

/-! ### The parse contract (C7) -/

lemma parse_body_eq (entries : List SubtitleEntry) (block : List Char) :
    (match splitNl (pyStrip block) with
      | l0 :: l1 :: rest =>
        match pyInt? l0 with
        | some index => entries ++ [{ index := index, timestamp := l1, text := joinNl rest }]
        | none => entries
      | _ => entries)
    = entries ++ (parseBlockSpec block).toList := by
  unfold parseBlockSpec
  rcases hsp : splitNl (pyStrip block) with _ | ⟨l0, _ | ⟨l1, rest⟩⟩
  · simp
  · simp
  · rcases hint : pyInt? l0 with _ | i
    · simp [hint]
    · simp [hint]

lemma foldl_toList_eq_filterMap (f : List Char → Option SubtitleEntry) :
    ∀ (blocks : List (List Char)) (acc : List SubtitleEntry),
      blocks.foldl (fun es b => es ++ (f b).toList) acc = acc ++ blocks.filterMap f := by
  intro blocks
  induction blocks with
  | nil => simp
  | cons b bs ih =>
    intro acc
    rcases h : f b with _ | e <;> simp [List.foldl_cons, h, ih, List.filterMap_cons]

lemma parse_srt_eq_filterMap (content : List Char) :
    parse_srt content = (splitBlocks (pyStrip content)).filterMap parseBlockSpec := by
  unfold parse_srt
  have hbody : (fun (entries : List SubtitleEntry) (block : List Char) =>
      (match splitNl (pyStrip block) with
        | l0 :: l1 :: rest =>
          match pyInt? l0 with
          | some index => entries ++ [{ index := index, timestamp := l1, text := joinNl rest }]
          | none => entries
        | _ => entries))
      = fun es b => es ++ (parseBlockSpec b).toList := by
    funext entries block
    exact parse_body_eq entries block
  rw [hbody, foldl_toList_eq_filterMap, List.nil_append]

/-! ### `str`/`int` round trip for entry indices -/

lemma digitChar_facts :
    ∀ d < 10, (digitChar d).isDigit = true ∧ digitChar d ≠ '_' ∧
      (digitChar d).toNat - 48 = d ∧ isPySpace (digitChar d) = false ∧
      digitChar d ≠ '\n' ∧ digitChar d ≠ '-' ∧ digitChar d ≠ '+' := by
  decide

lemma foldl_mul_add_reverse (l : List Nat) (acc : Nat) :
    l.reverse.foldl (fun a d => 10 * a + d) acc = acc * 10 ^ l.length + Nat.ofDigits 10 l := by
  induction l generalizing acc with
  | nil => simp [Nat.ofDigits_nil]
  | cons d ds ih =>
    simp only [List.reverse_cons, List.foldl_append, List.foldl_cons, List.foldl_nil, ih,
      Nat.ofDigits_cons, List.length_cons]
    ring

lemma digitsValAux_cons (acc : Nat) (c : Char) (rest : List Char) :
    digitsValAux acc (c :: rest)
      = if c = '_' then
          (match rest with
           | [] => none
           | c2 :: rest2 =>
             if c2.isDigit then digitsValAux (10 * acc + (c2.toNat - 48)) rest2 else none)
        else if c.isDigit then digitsValAux (10 * acc + (c.toNat - 48)) rest else none := by
  cases rest <;> rfl

lemma pyIntCore_cons (c : Char) (rest : List Char) :
    pyIntCore (c :: rest)
      = if c = '-' then (digitsVal rest).map (fun n => -(n : Int))
        else if c = '+' then (digitsVal rest).map (fun n => (n : Int))
        else (digitsVal (c :: rest)).map (fun n => (n : Int)) := rfl

lemma digitsValAux_map (l : List Nat) (h : ∀ d ∈ l, d < 10) (acc : Nat) :
    digitsValAux acc (l.map digitChar) = some (l.foldl (fun a d => 10 * a + d) acc) := by
  induction l generalizing acc with
  | nil => simp [digitsValAux]
  | cons d ds ih =>
    have hd := digitChar_facts d (h d (by simp))
    have hds : ∀ x ∈ ds, x < 10 := fun x hx => h x (by simp [hx])
    rw [List.map_cons, digitsValAux_cons, if_neg hd.2.1, if_pos hd.1, hd.2.2.1, ih hds,
      List.foldl_cons]

lemma digits_base_lt (n : Nat) : ∀ d ∈ Nat.digits 10 n, d < 10 := by
  intro d hd
  exact Nat.digits_lt_base (by norm_num) hd

lemma natReprGo_eq :
    ∀ (fuel n : Nat) (acc : List Char), n ≤ fuel →
      natReprGo fuel n acc = ((Nat.digits 10 n).map digitChar).reverse ++ acc := by
  intro fuel
  induction fuel with
  | zero =>
    intro n acc hn
    have h0 : n = 0 := Nat.le_zero.mp hn
    subst h0
    simp [natReprGo, Nat.digits_zero]
  | succ fuel ih =>
    intro n acc hn
    by_cases h0 : n = 0
    · subst h0
      simp [natReprGo, Nat.digits_zero]
    · rw [show natReprGo (fuel + 1) n acc
            = natReprGo fuel (n / 10) (digitChar (n % 10) :: acc) from by
        rw [natReprGo, if_neg h0]]
      rw [ih (n / 10) _ (by
        have := Nat.div_lt_self (Nat.pos_of_ne_zero h0) (by norm_num : 1 < 10)
        omega)]
      rw [Nat.digits_def' (by norm_num : 1 < 10) (Nat.pos_of_ne_zero h0)]
      simp [List.append_assoc]

lemma natRepr_eq_digits (n : Nat) (h0 : n ≠ 0) :
    natRepr n = ((Nat.digits 10 n).map digitChar).reverse := by
  unfold natRepr
  rw [if_neg h0, natReprGo_eq n n [] le_rfl, List.append_nil]

lemma digitsVal_natRepr (n : Nat) : digitsVal (natRepr n) = some n := by
  by_cases h0 : n = 0
  · subst h0; decide
  · have hne : Nat.digits 10 n ≠ [] := Nat.digits_ne_nil_iff_ne_zero.mpr h0
    have hrepr : natRepr n = ((Nat.digits 10 n).reverse).map digitChar := by
      rw [natRepr_eq_digits n h0, List.map_reverse]
    rcases hrev : (Nat.digits 10 n).reverse with _ | ⟨d, ds⟩
    · exact absurd (by simpa using congrArg List.reverse hrev) hne
    · have hmem : ∀ x ∈ d :: ds, x < 10 := by
        intro x hx
        refine digits_base_lt n x ?_
        have : x ∈ (Nat.digits 10 n).reverse := hrev ▸ hx
        simpa using this
      have hd := digitChar_facts d (hmem d (by simp))
      have hds : ∀ x ∈ ds, x < 10 := fun x hx => hmem x (by simp [hx])
      rw [hrepr, hrev, List.map_cons, digitsVal, if_pos hd.1, hd.2.2.1,
        digitsValAux_map ds hds]
      have h1 : List.foldl (fun a x => 10 * a + x) d ds
          = (d :: ds).foldl (fun a x => 10 * a + x) 0 := by
        simp only [List.foldl_cons]
        norm_num
      have h2 : (d :: ds).foldl (fun a x => 10 * a + x) 0 = n := by
        rw [← hrev, foldl_mul_add_reverse]
        simpa using Nat.ofDigits_digits 10 n
      rw [h1, h2]

lemma natRepr_ne_nil (n : Nat) : natRepr n ≠ [] := by
  by_cases h0 : n = 0
  · subst h0; decide
  · have hne : Nat.digits 10 n ≠ [] := Nat.digits_ne_nil_iff_ne_zero.mpr h0
    rw [natRepr_eq_digits n h0]
    simp [hne]

lemma natRepr_chars (n : Nat) :
    ∀ c ∈ natRepr n, c.isDigit = true ∧ isPySpace c = false ∧ c ≠ '\n' := by
  intro c hc
  by_cases h0 : n = 0
  · subst h0
    have h00 : natRepr 0 = ['0'] := rfl
    rw [h00, List.mem_singleton] at hc
    subst hc
    decide
  · rw [natRepr_eq_digits n h0] at hc
    simp only [List.mem_reverse, List.mem_map] at hc
    obtain ⟨d, hd, rfl⟩ := hc
    have := digitChar_facts d (digits_base_lt n d hd)
    exact ⟨this.1, this.2.2.2.1, this.2.2.2.2.1⟩

lemma intRepr_ne_nil (i : Int) : intRepr i ≠ [] := by
  cases i with
  | ofNat n => exact natRepr_ne_nil n
  | negSucc m => simp [intRepr]

lemma intRepr_chars (i : Int) :
    ∀ c ∈ intRepr i, isPySpace c = false ∧ c ≠ '\n' := by
  intro c hc
  cases i with
  | ofNat n => exact (natRepr_chars n c hc).2
  | negSucc m =>
    simp only [intRepr, List.mem_cons] at hc
    rcases hc with rfl | hc
    · exact ⟨by decide, by decide⟩
    · exact (natRepr_chars (m + 1) c hc).2

lemma dropWhile_eq_self_of_head (p : Char → Bool) (l : List Char)
    (h : ∀ c ∈ l.head?, p c = false) : l.dropWhile p = l := by
  cases l with
  | nil => rfl
  | cons c t =>
    have : p c = false := h c (by simp)
    simp [List.dropWhile_cons, this]

lemma pyStrip_eq_self (s : List Char)
    (hh : ∀ c ∈ s.head?, isPySpace c = false)
    (hl : ∀ c ∈ s.getLast?, isPySpace c = false) : pyStrip s = s := by
  unfold pyStrip pyRStrip
  rw [dropWhile_eq_self_of_head _ _ hh]
  rw [dropWhile_eq_self_of_head _ _ (by simpa using hl), List.reverse_reverse]

lemma pyStrip_of_all_nonspace (s : List Char)
    (h : ∀ c ∈ s, isPySpace c = false) : pyStrip s = s := by
  refine pyStrip_eq_self s ?_ ?_
  · intro c hc
    exact h c (List.mem_of_mem_head? hc)
  · intro c hc
    exact h c (List.mem_of_mem_getLast? hc)

lemma pyInt_intRepr (i : Int) : pyInt? (intRepr i) = some i := by
  have hstrip : pyStrip (intRepr i) = intRepr i :=
    pyStrip_of_all_nonspace _ (fun c hc => (intRepr_chars i c hc).1)
  unfold pyInt?
  rw [hstrip]
  cases i with
  | ofNat n =>
    rcases hn : natRepr n with _ | ⟨c, rest⟩
    · exact absurd hn (natRepr_ne_nil n)
    · have hcd : c.isDigit = true := (natRepr_chars n c (by rw [hn]; simp)).1
      have hcm : c ≠ '-' := by
        intro h; rw [h] at hcd; exact absurd hcd (by decide)
      have hcp : c ≠ '+' := by
        intro h; rw [h] at hcd; exact absurd hcd (by decide)
      have hi : intRepr (Int.ofNat n) = c :: rest := by
        rw [show intRepr (Int.ofNat n) = natRepr n from rfl, hn]
      rw [hi, pyIntCore_cons, if_neg hcm, if_neg hcp, ← hn, digitsVal_natRepr]
      rfl
  | negSucc m =>
    have hi : intRepr (Int.negSucc m) = '-' :: natRepr (m + 1) := rfl
    rw [hi, pyIntCore_cons, if_pos rfl, digitsVal_natRepr]
    rfl

/-! ### `splitNl` / `joinNl` toolkit -/

lemma splitNl_cons (c : Char) (rest : List Char) :
    splitNl (c :: rest)
      = if c = '\n' then [] :: splitNl rest else consHead c (splitNl rest) := rfl

lemma splitNl_ne_nil (t : List Char) : splitNl t ≠ [] := by
  cases t with
  | nil => simp [splitNl]
  | cons c rest =>
    rw [splitNl_cons]
    by_cases h : c = '\n'
    · simp [h]
    · rw [if_neg h]
      cases splitNl rest <;> simp [consHead]

lemma joinNl_consHead (c : Char) (ls : List (List Char)) (h : ls ≠ []) :
    joinNl (consHead c ls) = c :: joinNl ls := by
  rcases ls with _ | ⟨l, ls'⟩
  · exact absurd rfl h
  · rcases ls' with _ | ⟨y, ls''⟩
    · rfl
    · rfl

lemma joinNl_splitNl (t : List Char) : joinNl (splitNl t) = t := by
  induction t with
  | nil => rfl
  | cons c rest ih =>
    rw [splitNl_cons]
    by_cases h : c = '\n'
    · subst h
      rw [if_pos rfl]
      rcases hs : splitNl rest with _ | ⟨l, ls⟩
      · exact absurd hs (splitNl_ne_nil rest)
      · show joinNl ([] :: l :: ls) = '\n' :: rest
        have h1 : joinNl ([] :: l :: ls) = '\n' :: joinNl (l :: ls) := rfl
        rw [h1, ← hs, ih]
    · rw [if_neg h, joinNl_consHead c _ (splitNl_ne_nil rest), ih]

lemma splitNl_mem_nlFree (t : List Char) : ∀ l ∈ splitNl t, nlFree l := by
  induction t with
  | nil =>
    intro l hl
    simp only [splitNl, List.mem_singleton] at hl
    subst hl
    intro c hc
    simp at hc
  | cons c rest ih =>
    intro l hl
    rw [splitNl_cons] at hl
    by_cases h : c = '\n'
    · rw [if_pos h] at hl
      rcases List.mem_cons.mp hl with rfl | hl'
      · intro x hx; simp at hx
      · exact ih l hl'
    · rw [if_neg h] at hl
      rcases hs : splitNl rest with _ | ⟨l0, ls⟩
      · exact absurd hs (splitNl_ne_nil rest)
      · rw [hs] at hl
        simp only [consHead, List.mem_cons] at hl
        rcases hl with rfl | hl
        · intro x hx
          rcases List.mem_cons.mp hx with rfl | hx'
          · exact h
          · exact ih l0 (by rw [hs]; simp) x hx'
        · exact ih l (by rw [hs]; simp [hl])

lemma splitNl_append_nl (a r : List Char) (ha : nlFree a) :
    splitNl (a ++ '\n' :: r) = a :: splitNl r := by
  induction a with
  | nil =>
    show splitNl ('\n' :: r) = [] :: splitNl r
    rw [splitNl_cons, if_pos rfl]
  | cons c a' ih =>
    have hc : c ≠ '\n' := ha c (by simp)
    have ha' : nlFree a' := fun x hx => ha x (by simp [hx])
    show splitNl (c :: (a' ++ '\n' :: r)) = (c :: a') :: splitNl r
    rw [splitNl_cons, if_neg hc, ih ha']
    rfl

lemma splitNl_nlFree (t : List Char) (h : nlFree t) : splitNl t = [t] := by
  induction t with
  | nil => rfl
  | cons c rest ih =>
    have hc : c ≠ '\n' := h c (by simp)
    have hr : nlFree rest := fun x hx => h x (by simp [hx])
    rw [splitNl_cons, if_neg hc, ih hr]
    rfl

lemma splitNl_head_ne_nil (t : List Char) (h0 : t ≠ [])
    (hh : ∀ c ∈ t.head?, c ≠ '\n') :
    ∀ l ls, splitNl t = l :: ls → l ≠ [] := by
  intro l ls hsp
  rcases t with _ | ⟨c, rest⟩
  · exact absurd rfl h0
  · have hc : c ≠ '\n' := hh c (by simp)
    rw [splitNl_cons, if_neg hc] at hsp
    rcases hs : splitNl rest with _ | ⟨l0, ls0⟩
    · exact absurd hs (splitNl_ne_nil rest)
    · rw [hs] at hsp
      simp only [consHead] at hsp
      injection hsp with h1 h2
      rw [← h1]
      simp

lemma splitNl_tail_ne_nil (t : List Char) (hnn : NoNN t)
    (hl : ∀ c ∈ t.getLast?, c ≠ '\n') :
    ∀ l ∈ (splitNl t).tail, l ≠ [] := by
  induction t with
  | nil => intro l hl'; simp [splitNl] at hl'
  | cons c rest ih =>
    intro l hmem
    rw [splitNl_cons] at hmem
    by_cases h : c = '\n'
    · subst h
      rw [if_pos rfl] at hmem
      simp only [List.tail_cons] at hmem
      rcases rest with _ | ⟨c2, rest2⟩
      · exact absurd rfl (hl '\n' (by simp))
      · have hc2 : c2 ≠ '\n' := by
          intro hc2
          exact (List.chain'_cons.mp hnn).1 ⟨rfl, hc2⟩
        rcases hs : splitNl (c2 :: rest2) with _ | ⟨l0, ls0⟩
        · exact absurd hs (splitNl_ne_nil _)
        · rw [hs] at hmem
          rcases List.mem_cons.mp hmem with rfl | hmem'
          · exact splitNl_head_ne_nil (c2 :: rest2) (by simp) (by simp [hc2]) l ls0 hs
          · refine ih ((List.chain'_cons.mp hnn).2) ?_ l (by rw [hs]; simpa using hmem')
            intro x hx
            refine hl x ?_
            rwa [List.getLast?_cons_cons]
    · rw [if_neg h] at hmem
      rcases hs : splitNl rest with _ | ⟨l0, ls0⟩
      · exact absurd hs (splitNl_ne_nil rest)
      · rw [hs] at hmem
        simp only [consHead, List.tail_cons] at hmem
        rcases rest with _ | ⟨c2, rest2⟩
        · have h00 : splitNl ([] : List Char) = [[]] := rfl
          rw [h00] at hs
          injection hs with h1 h2
          subst h2
          simp at hmem
        · have htail : ∀ x ∈ (splitNl (c2 :: rest2)).tail, x ≠ [] := by
            refine ih ?_ ?_
            · exact (List.chain'_cons.mp hnn).2
            · intro x hx
              refine hl x ?_
              rwa [List.getLast?_cons_cons]
          rw [hs] at htail
          simp only [List.tail_cons] at htail
          exact htail l hmem

/-! ### `joinNl`, `NoNN` and `pyStrip` structure -/

lemma nlFree_NoNN (s : List Char) (h : nlFree s) : NoNN s := by
  induction s with
  | nil => exact List.chain'_nil
  | cons c t ih =>
    rcases t with _ | ⟨c2, t'⟩
    · exact List.chain'_singleton c
    · refine List.chain'_cons.mpr ⟨?_, ?_⟩
      · intro ⟨h1, _⟩
        exact h c (by simp) h1
      · exact ih (fun x hx => h x (by simp [hx]))

lemma joinNl_cons_ne (l : List Char) (ls : List (List Char)) (h : ls ≠ []) :
    joinNl (l :: ls) = l ++ '\n' :: joinNl ls := by
  rcases ls with _ | ⟨y, t⟩
  · exact absurd rfl h
  · have h1 : joinNl (l :: y :: t) = l ++ ['\n'] ++ joinNl (y :: t) := rfl
    rw [h1, List.append_assoc]
    rfl

lemma joinNl_head? (l : List Char) (ls : List (List Char)) (hne : l ≠ []) :
    (joinNl (l :: ls)).head? = l.head? := by
  rcases ls with _ | ⟨y, t⟩
  · rfl
  · rw [joinNl_cons_ne l (y :: t) (by simp), List.head?_append_of_ne_nil l hne]

lemma joinNl_getLast? (ls : List (List Char)) (l : List Char)
    (hlast : ls.getLast? = some l) (hne : l ≠ []) :
    (joinNl ls).getLast? = l.getLast? := by
  induction ls with
  | nil => simp at hlast
  | cons x t ih =>
    rcases t with _ | ⟨y, t'⟩
    · simp only [List.getLast?_singleton, Option.some.injEq] at hlast
      subst hlast
      rfl
    · rw [List.getLast?_cons_cons] at hlast
      have hj := ih hlast
      rw [joinNl_cons_ne x (y :: t') (by simp), List.getLast?_append]
      rcases hjj : joinNl (y :: t') with _ | ⟨j0, jt⟩
      · rw [hjj] at hj
        simp only [List.getLast?_nil] at hj
        rcases l with _ | ⟨l0, lt⟩
        · exact absurd rfl hne
        · exact absurd hj.symm (by simp [List.getLast?_cons])
      · rw [hjj] at hj
        have : ('\n' :: j0 :: jt).getLast? = (j0 :: jt).getLast? := List.getLast?_cons_cons
        rw [this, hj]
        rcases hl : l.getLast? with _ | c
        · rcases l with _ | ⟨l0, lt⟩
          · exact absurd rfl hne
          · simp [List.getLast?_cons] at hl
        · simp [hl]

lemma joinNl_NoNN (ls : List (List Char)) (hne : ∀ l ∈ ls, l ≠ [])
    (hfree : ∀ l ∈ ls, nlFree l) : NoNN (joinNl ls) := by
  induction ls with
  | nil => exact List.chain'_nil
  | cons x t ih =>
    rcases t with _ | ⟨y, t'⟩
    · exact nlFree_NoNN x (hfree x (by simp))
    · rw [joinNl_cons_ne x (y :: t') (by simp)]
      rw [show NoNN (x ++ '\n' :: joinNl (y :: t'))
            ↔ List.Chain' (fun a b => ¬(a = '\n' ∧ b = '\n')) (x ++ '\n' :: joinNl (y :: t'))
          from Iff.rfl, List.chain'_append]
      refine ⟨nlFree_NoNN x (hfree x (by simp)), ?_, ?_⟩
      · refine List.chain'_cons'.mpr ⟨?_, ?_⟩
        · intro c hc hand
          have hhd : (joinNl (y :: t')).head? = y.head? :=
            joinNl_head? y t' (hne y (by simp))
          rw [hhd] at hc
          exact hfree y (by simp) c (List.mem_of_mem_head? hc) hand.2
        · exact ih (fun l hl => hne l (by simp [hl])) (fun l hl => hfree l (by simp [hl]))
      · intro c hc d hd hand
        exact hfree x (by simp) c (List.mem_of_mem_getLast? hc) hand.1

lemma head?_dropWhile_not (p : Char → Bool) (l : List Char) :
    ∀ c ∈ (l.dropWhile p).head?, p c = false := by
  induction l with
  | nil => intro c hc; simp at hc
  | cons x t ih =>
    intro c hc
    by_cases hx : p x
    · rw [List.dropWhile_cons_of_pos hx] at hc
      exact ih c hc
    · rw [List.dropWhile_cons_of_neg hx] at hc
      simp only [List.head?_cons, Option.mem_def, Option.some.injEq] at hc
      subst hc
      exact Bool.of_not_eq_true hx

lemma pyRStrip_getLast_not_space (s : List Char) :
    ∀ c ∈ (pyRStrip s).getLast?, isPySpace c = false := by
  intro c hc
  unfold pyRStrip at hc
  rw [List.getLast?_reverse] at hc
  exact head?_dropWhile_not isPySpace s.reverse c hc

lemma pyRStrip_decomp (s : List Char) : ∃ post, s = pyRStrip s ++ post := by
  refine ⟨(s.reverse.takeWhile isPySpace).reverse, ?_⟩
  unfold pyRStrip
  rw [← List.reverse_append, List.takeWhile_append_dropWhile, List.reverse_reverse]

lemma pyStrip_head_not_space (s : List Char) :
    ∀ c ∈ (pyStrip s).head?, isPySpace c = false := by
  intro c hc
  unfold pyStrip at hc
  obtain ⟨post, hpost⟩ := pyRStrip_decomp (s.dropWhile isPySpace)
  rcases hr : pyRStrip (s.dropWhile isPySpace) with _ | ⟨x, t⟩
  · rw [hr] at hc; simp at hc
  · rw [hr] at hc hpost
    simp only [List.head?_cons, Option.mem_def, Option.some.injEq] at hc
    have hxx : (s.dropWhile isPySpace).head? = some x := by rw [hpost]; simp
    have hv := head?_dropWhile_not isPySpace s x hxx
    exact hc ▸ hv

lemma pyStrip_getLast_not_space (s : List Char) :
    ∀ c ∈ (pyStrip s).getLast?, isPySpace c = false :=
  pyRStrip_getLast_not_space (s.dropWhile isPySpace)

lemma NoNN_append_parts (a b : List Char) (h : NoNN (a ++ b)) : NoNN a ∧ NoNN b := by
  have := List.chain'_append.mp h
  exact ⟨this.1, this.2.1⟩

lemma NoNN_pyStrip (s : List Char) (h : NoNN s) : NoNN (pyStrip s) := by
  have h1 : NoNN (s.dropWhile isPySpace) := by
    have hdec : s = s.takeWhile isPySpace ++ s.dropWhile isPySpace :=
      (List.takeWhile_append_dropWhile isPySpace s).symm
    exact (NoNN_append_parts _ _ (hdec ▸ h)).2
  obtain ⟨post, hpost⟩ := pyRStrip_decomp (s.dropWhile isPySpace)
  exact (NoNN_append_parts _ _ (hpost ▸ h1)).1

lemma pyStrip_head_ne_nl (s : List Char) :
    ∀ c ∈ (pyStrip s).head?, c ≠ '\n' := by
  intro c hc he
  have := pyStrip_head_not_space s c hc
  rw [he] at this
  exact absurd this (by decide)

lemma pyStrip_getLast_ne_nl (s : List Char) :
    ∀ c ∈ (pyStrip s).getLast?, c ≠ '\n' := by
  intro c hc he
  have := pyStrip_getLast_not_space s c hc
  rw [he] at this
  exact absurd this (by decide)

/-! ### `splitBlocks` structure -/

lemma splitBlocks_nil : splitBlocks [] = [[]] := by
  rw [splitBlocks]

lemma splitBlocks_cons (c : Char) (rest : List Char) :
    splitBlocks (c :: rest)
      = if c = '\n' ∧ rest.head? = some '\n' then
          [] :: splitBlocks (rest.tail.dropWhile (fun x => x = '\n'))
        else consHead c (splitBlocks rest) := by
  rw [splitBlocks]

lemma splitBlocks_ne_nil (s : List Char) : splitBlocks s ≠ [] := by
  rcases s with _ | ⟨c, rest⟩
  · rw [splitBlocks_nil]; simp
  · rw [splitBlocks_cons]
    by_cases h : c = '\n' ∧ rest.head? = some '\n'
    · simp [h]
    · rw [if_neg h]
      cases splitBlocks rest <;> simp [consHead]

lemma splitBlocks_head (s : List Char) (b : List Char) (bs : List (List Char))
    (h : splitBlocks s = b :: bs) : b = [] ∨ b.head? = s.head? := by
  rcases s with _ | ⟨c, rest⟩
  · rw [splitBlocks_nil] at h
    injection h with h1 _
    exact Or.inl h1.symm
  · rw [splitBlocks_cons] at h
    by_cases hc : c = '\n' ∧ rest.head? = some '\n'
    · rw [if_pos hc] at h
      injection h with h1 _
      exact Or.inl h1.symm
    · rw [if_neg hc] at h
      rcases hs : splitBlocks rest with _ | ⟨b0, bs0⟩
      · exact absurd hs (splitBlocks_ne_nil rest)
      · rw [hs] at h
        simp only [consHead] at h
        injection h with h1 _
        rw [← h1]
        exact Or.inr rfl

lemma splitBlocks_mem_NoNN_aux :
    ∀ (n : Nat) (s : List Char), s.length ≤ n → ∀ b ∈ splitBlocks s, NoNN b := by
  intro n
  induction n with
  | zero =>
    intro s hs b hb
    have h0 : s = [] := List.length_eq_zero.mp (Nat.le_zero.mp hs)
    subst h0
    rw [splitBlocks_nil] at hb
    simp only [List.mem_singleton] at hb
    subst hb
    exact List.chain'_nil
  | succ n ih =>
    intro s hn
    rcases s with _ | ⟨c, rest⟩
    · intro b hb
      rw [splitBlocks_nil] at hb
      simp only [List.mem_singleton] at hb
      subst hb
      exact List.chain'_nil
    · intro b hb
      rw [splitBlocks_cons] at hb
      by_cases hc : c = '\n' ∧ rest.head? = some '\n'
      · rw [if_pos hc] at hb
        rcases List.mem_cons.mp hb with rfl | hb'
        · exact List.chain'_nil
        · have hlen : (rest.tail.dropWhile (fun x => x = '\n')).length ≤ n := by
            have h1 : (rest.tail.dropWhile (fun x => x = '\n')).length ≤ rest.tail.length :=
              List.IsSuffix.length_le (List.dropWhile_suffix _)
            have h2 : rest.tail.length ≤ rest.length := by
              rw [List.length_tail]; omega
            simp only [List.length_cons] at hn
            omega
          exact ih _ hlen b hb'
      · rw [if_neg hc] at hb
        rcases hs : splitBlocks rest with _ | ⟨b0, bs0⟩
        · exact absurd hs (splitBlocks_ne_nil rest)
        · rw [hs] at hb
          simp only [consHead, List.mem_cons] at hb
          have hrest : ∀ x ∈ splitBlocks rest, NoNN x := by
            refine ih rest ?_
            simp only [List.length_cons] at hn
            omega
          rcases hb with rfl | hb'
          · -- b = c :: b0
            rcases b0 with _ | ⟨d, b0'⟩
            · exact List.chain'_singleton c
            · refine List.chain'_cons.mpr ⟨?_, ?_⟩
              · intro ⟨h1, h2⟩
                -- c = '\n' and b0 starts with '\n': contradicts the split guard
                rcases splitBlocks_head rest (d :: b0') bs0 hs with h3 | h3
                · simp at h3
                · apply hc
                  refine ⟨h1, ?_⟩
                  rw [← h3]
                  simp [h2]
              · exact hrest (d :: b0') (by rw [hs]; simp)
          · exact hrest b (by rw [hs]; simp [hb'])

lemma splitBlocks_NoNN_single (b : List Char) (h : NoNN b) : splitBlocks b = [b] := by
  induction b with
  | nil => exact splitBlocks_nil
  | cons c rest ih =>
    rw [splitBlocks_cons]
    have hguard : ¬(c = '\n' ∧ rest.head? = some '\n') := by
      intro ⟨h1, h2⟩
      rcases rest with _ | ⟨d, rest'⟩
      · simp at h2
      · simp only [List.head?_cons, Option.some.injEq] at h2
        exact (List.chain'_cons.mp h).1 ⟨h1, h2⟩
    rw [if_neg hguard]
    have hrest : NoNN rest := by
      rcases rest with _ | ⟨d, rest'⟩
      · exact List.chain'_nil
      · exact (List.chain'_cons.mp h).2
    rw [ih hrest]
    rfl

lemma splitBlocks_append_sep (blk rest : List Char) (hnn : NoNN blk)
    (hlast : ∀ c ∈ blk.getLast?, c ≠ '\n') :
    splitBlocks (blk ++ '\n' :: '\n' :: rest)
      = blk :: splitBlocks (rest.dropWhile (fun x => x = '\n')) := by
  induction blk with
  | nil =>
    show splitBlocks ('\n' :: '\n' :: rest) = [] :: _
    rw [splitBlocks_cons, if_pos (by simp)]
    rfl
  | cons c blk' ih =>
    show splitBlocks (c :: (blk' ++ '\n' :: '\n' :: rest)) = _
    rcases blk' with _ | ⟨d, blk''⟩
    · have hc : c ≠ '\n' := by
        intro h
        exact hlast c (by simp) h
      rw [splitBlocks_cons, if_neg (by simp [hc])]
      have h0 : splitBlocks ('\n' :: '\n' :: rest)
          = [] :: splitBlocks (rest.dropWhile (fun x => x = '\n')) := by
        rw [splitBlocks_cons, if_pos (by simp)]
        rfl
      rw [List.nil_append, h0]
      rfl
    · have hguard : ¬(c = '\n' ∧ ((d :: blk'') ++ '\n' :: '\n' :: rest).head? = some '\n') := by
        intro ⟨h1, h2⟩
        simp only [List.cons_append, List.head?_cons, Option.some.injEq] at h2
        exact (List.chain'_cons.mp hnn).1 ⟨h1, h2⟩
      rw [splitBlocks_cons, if_neg hguard]
      have ihh := ih (List.chain'_cons.mp hnn).2 (by
        intro x hx
        refine hlast x ?_
        rwa [List.getLast?_cons_cons])
      rw [ihh]
      rfl

/-! ### Entries produced by `parse_srt` are well shaped -/

lemma splitBlocks_mem_NoNN (s : List Char) : ∀ b ∈ splitBlocks s, NoNN b :=
  splitBlocks_mem_NoNN_aux s.length s le_rfl

lemma parseBlockSpec_good (block : List Char) (hnn : NoNN block) (e : SubtitleEntry)
    (h : parseBlockSpec block = some e) : GoodEntry e := by
  have hBnn : NoNN (pyStrip block) := NoNN_pyStrip block hnn
  have hBhead : ∀ c ∈ (pyStrip block).head?, c ≠ '\n' := pyStrip_head_ne_nl block
  have hBlast : ∀ c ∈ (pyStrip block).getLast?, c ≠ '\n' := pyStrip_getLast_ne_nl block
  have hBlastS : ∀ c ∈ (pyStrip block).getLast?, isPySpace c = false :=
    pyStrip_getLast_not_space block
  unfold parseBlockSpec at h
  rcases hsp : splitNl (pyStrip block) with _ | ⟨l0, ls⟩
  · exact absurd hsp (splitNl_ne_nil _)
  rcases ls with _ | ⟨l1, rest⟩
  · rw [hsp] at h
    simp at h
  rw [hsp] at h
  simp only [List.length_cons, List.getD_cons_zero, List.getD_cons_succ,
    List.drop_succ_cons, List.drop_zero] at h
  by_cases hcond : 2 ≤ rest.length + 1 + 1 ∧ (pyInt? l0).isSome
  · rw [if_pos hcond] at h
    injection h with h
    subst h
    -- pieces of the split
    have htail : ∀ l ∈ (splitNl (pyStrip block)).tail, l ≠ [] :=
      splitNl_tail_ne_nil (pyStrip block) hBnn hBlast
    have hl1ne : l1 ≠ [] := htail l1 (by rw [hsp]; simp)
    have hl1free : nlFree l1 := splitNl_mem_nlFree (pyStrip block) l1 (by rw [hsp]; simp)
    have hrestne : ∀ l ∈ rest, l ≠ [] := by
      intro l hl
      exact htail l (by rw [hsp]; simp [hl])
    have hrestfree : ∀ l ∈ rest, nlFree l := by
      intro l hl
      exact splitNl_mem_nlFree (pyStrip block) l (by rw [hsp]; simp [hl])
    have hjoin : joinNl (l0 :: l1 :: rest) = pyStrip block := by
      rw [← hsp, joinNl_splitNl]
    refine ⟨hl1ne, hl1free, ?_, ?_, ?_, ?_⟩
    · exact joinNl_NoNN rest hrestne hrestfree
    · -- text does not start with a newline
      rcases rest with _ | ⟨r0, rs⟩
      · intro c hc; simp [joinNl, joinSep] at hc
      · intro c hc
        rw [joinNl_head? r0 rs (hrestne r0 (by simp))] at hc
        exact hrestfree r0 (by simp) c (List.mem_of_mem_head? hc)
    · -- text does not end in whitespace
      rcases rest with _ | ⟨r0, rs⟩
      · intro c hc; simp [joinNl, joinSep] at hc
      · intro c hc
        have hlastc : (r0 :: rs).getLast? = some ((r0 :: rs).getLast (by simp)) :=
          List.getLast?_eq_getLast _ _
        have hlastne : (r0 :: rs).getLast (by simp) ≠ [] :=
          hrestne _ (List.getLast_mem _)
        have h1 : (joinNl (r0 :: rs)).getLast? = ((r0 :: rs).getLast (by simp)).getLast? :=
          joinNl_getLast? (r0 :: rs) _ hlastc hlastne
        -- the whole block has the same last character
        have h2 : (joinNl (l0 :: l1 :: r0 :: rs)).getLast?
            = ((r0 :: rs).getLast (by simp)).getLast? := by
          refine joinNl_getLast? _ _ ?_ hlastne
          rw [List.getLast?_cons_cons, List.getLast?_cons_cons]
          exact hlastc
        rw [h1] at hc
        refine hBlastS c ?_
        rw [← hjoin, h2]
        exact hc
    · -- empty text: the timestamp does not end in whitespace
      intro htext c hc
      rcases rest with _ | ⟨r0, rs⟩
      · have h2 : (joinNl (l0 :: l1 :: ([] : List (List Char)))).getLast? = l1.getLast? := by
          have : joinNl (l0 :: [l1]) = l0 ++ '\n' :: l1 := joinNl_cons_ne l0 [l1] (by simp)
          rw [this, List.getLast?_append]
          rcases l1 with _ | ⟨a, t⟩
          · exact absurd rfl hl1ne
          · simp [List.getLast?_cons]
        refine hBlastS c ?_
        rw [← hjoin, h2]
        exact hc
      · exact absurd htext (by
          show joinNl (r0 :: rs) ≠ []
          rcases rs with _ | ⟨y, ys⟩
          · show joinNl [r0] ≠ []
            have h00 : joinNl [r0] = r0 := rfl
            rw [h00]
            exact hrestne r0 (by simp)
          · rw [joinNl_cons_ne r0 (y :: ys) (by simp)]
            simp)
  · rw [if_neg hcond] at h
    exact absurd h (by simp)

lemma mem_parse_good (c : List Char) : ∀ e ∈ parse_srt c, GoodEntry e := by
  intro e he
  rw [parse_srt_eq_filterMap] at he
  obtain ⟨block, hblock, hpb⟩ := List.mem_filterMap.mp he
  exact parseBlockSpec_good block (splitBlocks_mem_NoNN _ block hblock) e hpb

/-! ### `build_srt` structure -/

lemma getLast?_append_right (x y : List Char) (h : y ≠ []) :
    (x ++ y).getLast? = y.getLast? := by
  rw [List.getLast?_append]
  rcases y with _ | ⟨a, t⟩
  · exact absurd rfl h
  · have : (a :: t).getLast? = some ((a :: t).getLast (by simp)) := List.getLast?_eq_getLast _ _
    rw [this]
    rfl

lemma getLast?_cons_ne (c : Char) (t : List Char) (h : t ≠ []) :
    (c :: t).getLast? = t.getLast? := by
  rcases t with _ | ⟨a, t'⟩
  · exact absurd rfl h
  · exact List.getLast?_cons_cons

lemma foldl_append_flatten (es : List SubtitleEntry) :
    ∀ acc, es.foldl (fun r e => r ++ [intRepr e.index, e.timestamp, e.text, []]) acc
      = acc ++ (es.map (fun e => [intRepr e.index, e.timestamp, e.text, []])).flatten := by
  induction es with
  | nil => intro acc; simp
  | cons e es ih =>
    intro acc
    simp only [List.foldl_cons, ih, List.map_cons, List.flatten_cons, List.append_assoc]

lemma joinSep_append (sep : List Char) :
    ∀ (xs ys : List (List Char)), xs ≠ [] → ys ≠ [] →
      joinSep sep (xs ++ ys) = joinSep sep xs ++ sep ++ joinSep sep ys := by
  intro xs
  induction xs with
  | nil => intro ys h _; exact absurd rfl h
  | cons x xs' ih =>
    intro ys _ hys
    rcases xs' with _ | ⟨x2, xs''⟩
    · rcases ys with _ | ⟨y, ys'⟩
      · exact absurd rfl hys
      · rfl
    · have h1 : joinSep sep ((x :: x2 :: xs'') ++ ys)
          = x ++ sep ++ joinSep sep ((x2 :: xs'') ++ ys) := rfl
      rw [h1, ih ys (by simp) hys]
      have h2 : joinSep sep (x :: x2 :: xs'') = x ++ sep ++ joinSep sep (x2 :: xs'') := rfl
      rw [h2]
      simp [List.append_assoc]

lemma build_srt_cons (e : SubtitleEntry) (es : List SubtitleEntry) :
    build_srt (e :: es)
      = (intRepr e.index ++ '\n' :: e.timestamp ++ '\n' :: e.text ++ ['\n'])
        ++ (if es = [] then [] else '\n' :: build_srt es) := by
  unfold build_srt
  rw [foldl_append_flatten, foldl_append_flatten, List.nil_append, List.nil_append]
  rcases es with _ | ⟨e2, es'⟩
  · show joinNl ([intRepr e.index, e.timestamp, e.text, []] ++ []) = _
    rw [List.append_nil, if_pos rfl, List.append_nil]
    show joinNl [intRepr e.index, e.timestamp, e.text, []] = _
    have h1 : joinNl [intRepr e.index, e.timestamp, e.text, []]
        = intRepr e.index ++ ['\n'] ++ (e.timestamp ++ ['\n'] ++ (e.text ++ ['\n'] ++ [])) := rfl
    rw [h1]
    simp [List.append_assoc]
  · rw [if_neg (by simp)]
    unfold joinNl
    simp only [List.map_cons, List.flatten_cons]
    rw [joinSep_append ['\n'] [intRepr e.index, e.timestamp, e.text, []]
        ([intRepr e2.index, e2.timestamp, e2.text, []]
          ++ (List.map (fun e => [intRepr e.index, e.timestamp, e.text, []]) es').flatten)
        (by simp) (by simp)]
    have h1 : joinSep ['\n'] [intRepr e.index, e.timestamp, e.text, []]
        = intRepr e.index ++ ['\n'] ++ (e.timestamp ++ ['\n'] ++ (e.text ++ ['\n'] ++ [])) := rfl
    rw [h1]
    simp [List.append_assoc]

lemma pyRStrip_append_of_ne_nil (x y : List Char) (h : pyRStrip y ≠ []) :
    pyRStrip (x ++ y) = x ++ pyRStrip y := by
  unfold pyRStrip at *
  rw [List.reverse_append, List.dropWhile_append]
  have hne : (y.reverse.dropWhile isPySpace).isEmpty = false := by
    rcases hy : y.reverse.dropWhile isPySpace with _ | ⟨a, t⟩
    · rw [hy] at h; simp at h
    · rfl
  rw [hne]
  simp only [Bool.false_eq_true, if_false, List.reverse_append, List.reverse_reverse]

lemma pyRStrip_append_spaces (x y : List Char) (h : ∀ c ∈ y, isPySpace c = true) :
    pyRStrip (x ++ y) = pyRStrip x := by
  unfold pyRStrip
  rw [List.reverse_append, List.dropWhile_append]
  have hnil : y.reverse.dropWhile isPySpace = [] := by
    rw [List.dropWhile_eq_nil_iff]
    intro c hc
    exact h c (by simpa using hc)
  rw [hnil]
  rfl

lemma pyRStrip_eq_self (s : List Char) (h : ∀ c ∈ s.getLast?, isPySpace c = false) :
    pyRStrip s = s := by
  unfold pyRStrip
  rw [dropWhile_eq_self_of_head _ _ (by simpa using h), List.reverse_reverse]

/-! ### Shape of serialized blocks -/

lemma blockOf_eq (e : SubtitleEntry) :
    blockOf e
      = intRepr e.index
        ++ ('\n' :: (e.timestamp ++ (if e.text = [] then [] else '\n' :: e.text))) := by
  unfold blockOf
  simp [List.append_assoc]

lemma blockOf_ne_nil (e : SubtitleEntry) : blockOf e ≠ [] := by
  rw [blockOf_eq]
  intro h
  exact intRepr_ne_nil e.index (List.append_eq_nil.mp h).1

lemma blockOf_head? (e : SubtitleEntry) : (blockOf e).head? = (intRepr e.index).head? := by
  rw [blockOf_eq]
  exact List.head?_append_of_ne_nil _ (intRepr_ne_nil e.index)

lemma intRepr_head_not_space (i : Int) :
    ∀ c ∈ (intRepr i).head?, isPySpace c = false :=
  fun c hc => (intRepr_chars i c (List.mem_of_mem_head? hc)).1

lemma intRepr_nlFree (i : Int) : nlFree (intRepr i) :=
  fun c hc => (intRepr_chars i c hc).2

lemma blockOf_getLast_not_space (e : SubtitleEntry) (hg : GoodEntry e) :
    ∀ c ∈ (blockOf e).getLast?, isPySpace c = false := by
  obtain ⟨hts, htsfree, hnn, hhd, hlastT, hlastTs⟩ := hg
  rw [blockOf_eq]
  by_cases ht : e.text = []
  · rw [if_pos ht, List.append_nil]
    rw [getLast?_append_right _ _ (by simp), getLast?_cons_ne _ _ hts]
    exact hlastTs ht
  · rw [if_neg ht]
    rw [getLast?_append_right _ _ (by simp),
      getLast?_cons_ne _ _ (by simp),
      getLast?_append_right _ _ (by simp),
      getLast?_cons_ne _ _ ht]
    exact hlastT

lemma blockOf_getLast_ne_nl (e : SubtitleEntry) (hg : GoodEntry e) :
    ∀ c ∈ (blockOf e).getLast?, c ≠ '\n' := by
  intro c hc he
  have := blockOf_getLast_not_space e hg c hc
  rw [he] at this
  exact absurd this (by decide)

lemma blockOf_NoNN (e : SubtitleEntry) (hg : GoodEntry e) : NoNN (blockOf e) := by
  obtain ⟨hts, htsfree, hnn, hhd, hlastT, hlastTs⟩ := hg
  rw [blockOf_eq]
  refine List.chain'_append.mpr ⟨nlFree_NoNN _ (intRepr_nlFree e.index), ?_, ?_⟩
  · refine List.chain'_cons'.mpr ⟨?_, ?_⟩
    · intro y hy hand
      rcases hs : e.timestamp with _ | ⟨t0, ts'⟩
      · exact hts hs
      · rw [hs, List.cons_append] at hy
        simp only [List.head?_cons, Option.mem_def, Option.some.injEq] at hy
        exact htsfree t0 (by rw [hs]; simp) (by rw [hy]; exact hand.2)
    · by_cases ht : e.text = []
      · rw [if_pos ht, List.append_nil]
        exact nlFree_NoNN _ htsfree
      · rw [if_neg ht]
        refine List.chain'_append.mpr ⟨nlFree_NoNN _ htsfree, ?_, ?_⟩
        · refine List.chain'_cons'.mpr ⟨?_, hnn⟩
          intro y hy hand
          exact hhd y hy hand.2
        · intro x hx y hy hand
          exact htsfree x (List.mem_of_mem_getLast? hx) hand.1
  · intro x hx y hy hand
    exact intRepr_nlFree e.index x (List.mem_of_mem_getLast? hx) hand.1

lemma blockOf_decomp (e : SubtitleEntry) :
    intRepr e.index ++ '\n' :: e.timestamp ++ '\n' :: e.text ++ ['\n']
      = blockOf e ++ (if e.text = [] then ['\n', '\n'] else ['\n']) := by
  rw [blockOf_eq]
  by_cases ht : e.text = []
  · rw [if_pos ht, if_pos ht, ht]
    simp [List.append_assoc]
  · rw [if_neg ht, if_neg ht]
    simp [List.append_assoc]

lemma build_srt_decomp (e : SubtitleEntry) (es : List SubtitleEntry) (hes : es ≠ []) :
    build_srt (e :: es) = blockOf e ++ (sepNl e ++ build_srt es) := by
  rw [build_srt_cons, if_neg hes, blockOf_decomp]
  unfold sepNl
  by_cases ht : e.text = []
  · rw [if_pos ht, if_pos ht]
    simp [List.append_assoc]
  · rw [if_neg ht, if_neg ht]
    simp [List.append_assoc]

lemma build_srt_single (e : SubtitleEntry) :
    build_srt [e] = blockOf e ++ (if e.text = [] then ['\n', '\n'] else ['\n']) := by
  rw [build_srt_cons, if_pos rfl, List.append_nil, blockOf_decomp]

lemma interBlocks_cons_decomp (e : SubtitleEntry) (es : List SubtitleEntry) :
    ∃ t, interBlocks (e :: es) = blockOf e ++ t := by
  rcases es with _ | ⟨e2, es'⟩
  · exact ⟨[], by simp [interBlocks]⟩
  · exact ⟨sepNl e ++ interBlocks (e2 :: es'), by simp [interBlocks, List.append_assoc]⟩

lemma interBlocks_ne_nil (e : SubtitleEntry) (es : List SubtitleEntry) :
    interBlocks (e :: es) ≠ [] := by
  obtain ⟨t, ht⟩ := interBlocks_cons_decomp e es
  rw [ht]
  intro h
  exact blockOf_ne_nil e (List.append_eq_nil.mp h).1

lemma interBlocks_head? (e : SubtitleEntry) (es : List SubtitleEntry) :
    (interBlocks (e :: es)).head? = (intRepr e.index).head? := by
  obtain ⟨t, ht⟩ := interBlocks_cons_decomp e es
  rw [ht, List.head?_append_of_ne_nil _ (blockOf_ne_nil e), blockOf_head?]

lemma build_cons_head? (e : SubtitleEntry) (es : List SubtitleEntry) :
    (build_srt (e :: es)).head? = (intRepr e.index).head? := by
  rcases es with _ | ⟨e2, es'⟩
  · rw [build_srt_single, List.head?_append_of_ne_nil _ (blockOf_ne_nil e), blockOf_head?]
  · rw [build_srt_decomp e (e2 :: es') (by simp),
      List.head?_append_of_ne_nil _ (blockOf_ne_nil e), blockOf_head?]

lemma pyStrip_build_cons_step (e : SubtitleEntry) (es : List SubtitleEntry) :
    pyStrip (build_srt (e :: es)) = pyRStrip (build_srt (e :: es)) := by
  unfold pyStrip
  rw [dropWhile_eq_self_of_head _ _ (by
    intro c hc
    rw [build_cons_head? e es] at hc
    exact intRepr_head_not_space e.index c hc)]

lemma pyStrip_build (es : List SubtitleEntry) (hg : ∀ e ∈ es, GoodEntry e) :
    pyStrip (build_srt es) = interBlocks es := by
  induction es with
  | nil => rfl
  | cons e es' ih =>
    rw [pyStrip_build_cons_step e es']
    rcases es' with _ | ⟨e2, es''⟩
    · rw [build_srt_single e, pyRStrip_append_spaces _ _ (by
        by_cases ht : e.text = [] <;> simp [ht] <;> decide)]
      rw [pyRStrip_eq_self _ (blockOf_getLast_not_space e (hg e (by simp)))]
      rfl
    · rw [build_srt_decomp e (e2 :: es'') (by simp)]
      have hrec : pyRStrip (build_srt (e2 :: es'')) = interBlocks (e2 :: es'') := by
        rw [← pyStrip_build_cons_step e2 es'']
        exact ih (fun x hx => hg x (List.mem_cons_of_mem e hx))
      have h1 : pyRStrip (sepNl e ++ build_srt (e2 :: es''))
          = sepNl e ++ pyRStrip (build_srt (e2 :: es'')) := by
        refine pyRStrip_append_of_ne_nil _ _ ?_
        rw [hrec]
        exact interBlocks_ne_nil e2 es''
      have h2 : pyRStrip (blockOf e ++ (sepNl e ++ build_srt (e2 :: es'')))
          = blockOf e ++ pyRStrip (sepNl e ++ build_srt (e2 :: es'')) := by
        refine pyRStrip_append_of_ne_nil _ _ ?_
        rw [h1, hrec]
        intro h
        rcases List.append_eq_nil.mp h with ⟨_, h2'⟩
        exact interBlocks_ne_nil e2 es'' h2'
      rw [h2, h1, hrec]
      rw [show interBlocks (e :: e2 :: es'')
            = blockOf e ++ sepNl e ++ interBlocks (e2 :: es'') from rfl]
      simp [List.append_assoc]

/-! ### Re-parsing serialized documents -/

lemma dropWhile_nl_of_head (s : List Char) (h : ∀ c ∈ s.head?, c ≠ '\n') :
    s.dropWhile (fun x => x = '\n') = s := by
  refine dropWhile_eq_self_of_head _ _ ?_
  intro c hc
  exact decide_eq_false (h c hc)

lemma splitBlocks_interBlocks (es : List SubtitleEntry) :
    ∀ e, (∀ x ∈ e :: es, GoodEntry x) →
      splitBlocks (interBlocks (e :: es)) = (e :: es).map blockOf := by
  induction es with
  | nil =>
    intro e hg
    show splitBlocks (blockOf e) = [blockOf e]
    exact splitBlocks_NoNN_single _ (blockOf_NoNN e (hg e (by simp)))
  | cons e2 es' ih =>
    intro e hg
    have hge : GoodEntry e := hg e (by simp)
    have hgrest : ∀ x ∈ e2 :: es', GoodEntry x := fun x hx => hg x (by simp [List.mem_cons] at hx ⊢; tauto)
    have hIhead : ∀ c ∈ (interBlocks (e2 :: es')).head?, c ≠ '\n' := by
      intro c hc he
      rw [interBlocks_head? e2 es'] at hc
      have := intRepr_head_not_space e2.index c hc
      rw [he] at this
      exact absurd this (by decide)
    have hdrop : (interBlocks (e2 :: es')).dropWhile (fun x => x = '\n')
        = interBlocks (e2 :: es') := dropWhile_nl_of_head _ hIhead
    have hrec := ih e2 hgrest
    rw [show interBlocks (e :: e2 :: es')
          = blockOf e ++ sepNl e ++ interBlocks (e2 :: es') from rfl]
    unfold sepNl
    by_cases ht : e.text = []
    · rw [if_pos ht]
      rw [show blockOf e ++ ['\n', '\n', '\n'] ++ interBlocks (e2 :: es')
            = blockOf e ++ '\n' :: '\n' :: ('\n' :: interBlocks (e2 :: es')) from by
        simp [List.append_assoc]]
      rw [splitBlocks_append_sep _ _ (blockOf_NoNN e hge) (blockOf_getLast_ne_nl e hge)]
      rw [show ('\n' :: interBlocks (e2 :: es')).dropWhile (fun x => x = '\n')
            = (interBlocks (e2 :: es')).dropWhile (fun x => x = '\n') from by
        rw [List.dropWhile_cons_of_pos (by decide)]]
      rw [hdrop, hrec]
      rfl
    · rw [if_neg ht]
      rw [show blockOf e ++ ['\n', '\n'] ++ interBlocks (e2 :: es')
            = blockOf e ++ '\n' :: '\n' :: interBlocks (e2 :: es') from by
        simp [List.append_assoc]]
      rw [splitBlocks_append_sep _ _ (blockOf_NoNN e hge) (blockOf_getLast_ne_nl e hge)]
      rw [hdrop, hrec]
      rfl

lemma parseBlockSpec_blockOf (e : SubtitleEntry) (hg : GoodEntry e) :
    parseBlockSpec (blockOf e) = some e := by
  have hstrip : pyStrip (blockOf e) = blockOf e := by
    refine pyStrip_eq_self _ ?_ (blockOf_getLast_not_space e hg)
    intro c hc
    rw [blockOf_head?] at hc
    exact intRepr_head_not_space e.index c hc
  obtain ⟨hts, htsfree, hnn, hhd, hlastT, hlastTs⟩ := hg
  unfold parseBlockSpec
  rw [hstrip, blockOf_eq]
  by_cases ht : e.text = []
  · rw [if_pos ht, List.append_nil]
    rw [splitNl_append_nl _ _ (intRepr_nlFree e.index), splitNl_nlFree _ htsfree]
    rw [if_pos (by
      constructor
      · simp
      · simp only [List.getD_cons_zero]
        rw [pyInt_intRepr]
        rfl)]
    simp only [List.getD_cons_zero, List.getD_cons_succ, pyInt_intRepr, Option.getD_some]
    rcases e with ⟨i, ts, text⟩
    simp only at ht
    subst ht
    rfl
  · rw [if_neg ht]
    rw [splitNl_append_nl _ _ (intRepr_nlFree e.index),
      splitNl_append_nl _ _ htsfree]
    rw [if_pos (by
      constructor
      · simp only [List.length_cons]
        omega
      · simp only [List.getD_cons_zero]
        rw [pyInt_intRepr]
        rfl)]
    simp only [List.getD_cons_zero, List.getD_cons_succ, pyInt_intRepr, Option.getD_some,
      List.drop_succ_cons, List.drop_zero, joinNl_splitNl]

lemma filterMap_id_of_some (f : SubtitleEntry → Option SubtitleEntry) :
    ∀ (l : List SubtitleEntry), (∀ a ∈ l, f a = some a) → l.filterMap f = l := by
  intro l
  induction l with
  | nil => intro _; rfl
  | cons a t ih =>
    intro h
    rw [List.filterMap_cons, h a (by simp), ih (fun x hx => h x (by simp [hx]))]

lemma parse_build_of_good (es : List SubtitleEntry) (hg : ∀ e ∈ es, GoodEntry e) :
    parse_srt (build_srt es) = es := by
  rcases es with _ | ⟨e, es'⟩
  · rw [show build_srt [] = [] from rfl, parse_srt_eq_filterMap,
      show pyStrip [] = [] from rfl, splitBlocks_nil]
    rw [List.filterMap_cons, show parseBlockSpec [] = none from rfl]
    rfl
  · rw [parse_srt_eq_filterMap, pyStrip_build _ hg, splitBlocks_interBlocks es' e hg,
      List.filterMap_map]
    refine filterMap_id_of_some _ _ ?_
    intro a ha
    exact parseBlockSpec_blockOf a (hg a ha)

/-- C7 — Parse contract: `parse_srt` splits the input on blank-line-delimited
blocks and accepts a block exactly when it has at least 2 lines and its first
line parses as an integer; the second line becomes the timestamp, lines 3
onward (joined by newline, the empty string when absent) become the text, and
blocks failing the integer-index check contribute nothing — they are silently
dropped, and `parse_srt` is a total function, so no error is raised. -/
theorem c7_parse_contract (content : List Char) :
    parse_srt content = (splitBlocks (pyStrip content)).filterMap parseBlockSpec :=
  parse_srt_eq_filterMap content

/-- C8 — Round-trip stability: for every input string, serializing the parsed
document with `build_srt` and parsing again yields exactly the same list of
entries (same count, same indices, timestamps and texts) as the first parse. -/
theorem c8_roundtrip (content : List Char) :
    parse_srt (build_srt (parse_srt content)) = parse_srt content :=
  parse_build_of_good (parse_srt content) (mem_parse_good content)

/-! ### Engine structure: batches, frames, slices -/

lemma chunks_nil (b : Nat) : chunks b [] = [] := by
  rw [chunks]

lemma chunks_cons (b : Nat) (e : SubtitleEntry) (es : List SubtitleEntry) :
    chunks b (e :: es) = (e :: es).take b :: chunks b (es.drop (b - 1)) := by
  rw [chunks]

lemma runBatches_nil (dir : SrtDirection) (oracle : ModelOracle) (rules : Rules)
    (sys : List Char) (b k : Nat) : runBatches dir oracle rules sys b k [] = [] := by
  rw [runBatches]

lemma runBatches_cons (dir : SrtDirection) (oracle : ModelOracle) (rules : Rules)
    (sys : List Char) (b k : Nat) (e : SubtitleEntry) (es : List SubtitleEntry) :
    runBatches dir oracle rules sys b k (e :: es)
      = runBatch dir oracle rules sys k ((e :: es).take b) ++
        runBatches dir oracle rules sys b (k + 1) (es.drop (b - 1)) := by
  rw [runBatches]

lemma drop_pred_cons (b : Nat) (hb : 0 < b) (e : SubtitleEntry) (es : List SubtitleEntry) :
    es.drop (b - 1) = (e :: es).drop b := by
  rcases b with _ | b'
  · omega
  · simp [List.drop_succ_cons]

lemma mergeEntry_sameFrame (post : Rules → List Char → List Char) (rules : Rules)
    (corrections : List (List Char × List Char)) (e : SubtitleEntry) :
    sameFrame e (mergeEntry post rules corrections e) := by
  unfold mergeEntry
  rcases lookupKV corrections (intRepr e.index) with _ | t
  · exact ⟨rfl, rfl⟩
  · exact ⟨rfl, rfl⟩

lemma forall₂_map_merge (post : Rules → List Char → List Char) (rules : Rules)
    (corrections : List (List Char × List Char)) (t : List SubtitleEntry) :
    List.Forall₂ sameFrame t (t.map (mergeEntry post rules corrections)) := by
  induction t with
  | nil => exact List.Forall₂.nil
  | cons x t' ih =>
    exact List.Forall₂.cons (mergeEntry_sameFrame post rules corrections x) ih

lemma runBatch_sameFrame (dir : SrtDirection) (oracle : ModelOracle) (rules : Rules)
    (sys : List Char) (k : Nat) (batch : List SubtitleEntry) :
    List.Forall₂ sameFrame batch (runBatch dir oracle rules sys k batch) := by
  unfold runBatch
  by_cases hp : batchPayload batch = []
  · rw [if_pos hp]
    exact List.forall₂_same.mpr (fun x _ => ⟨rfl, rfl⟩)
  · rw [if_neg hp]
    rcases oracle k sys (dir.mkUserPrompt (batchPayload batch)) with _ | corrections
    · exact List.forall₂_same.mpr (fun x _ => ⟨rfl, rfl⟩)
    · exact forall₂_map_merge dir.post rules corrections batch

lemma runBatch_length (dir : SrtDirection) (oracle : ModelOracle) (rules : Rules)
    (sys : List Char) (k : Nat) (batch : List SubtitleEntry) :
    (runBatch dir oracle rules sys k batch).length = batch.length :=
  (runBatch_sameFrame dir oracle rules sys k batch).length_eq.symm

lemma runBatches_sameFrame_aux (dir : SrtDirection) (oracle : ModelOracle) (rules : Rules)
    (sys : List Char) (b : Nat) (hb : 0 < b) :
    ∀ (n : Nat) (l : List SubtitleEntry), l.length ≤ n → ∀ k,
      List.Forall₂ sameFrame l (runBatches dir oracle rules sys b k l) := by
  intro n
  induction n with
  | zero =>
    intro l hl k
    have h0 : l = [] := List.length_eq_zero.mp (Nat.le_zero.mp hl)
    subst h0
    rw [runBatches_nil]
    exact List.Forall₂.nil
  | succ n ih =>
    intro l hl k
    rcases l with _ | ⟨e, es⟩
    · rw [runBatches_nil]; exact List.Forall₂.nil
    · rw [runBatches_cons]
      have hA := runBatch_sameFrame dir oracle rules sys k ((e :: es).take b)
      have hB : List.Forall₂ sameFrame (es.drop (b - 1))
          (runBatches dir oracle rules sys b (k + 1) (es.drop (b - 1))) := by
        refine ih _ ?_ (k + 1)
        have h1 : (es.drop (b - 1)).length ≤ es.length := by
          rw [List.length_drop]; omega
        simp only [List.length_cons] at hl
        omega
      have hAB := List.rel_append hA hB
      simp only at hAB
      rw [drop_pred_cons b hb e es] at hAB ⊢
      rwa [List.take_append_drop] at hAB

lemma runBatches_sameFrame (dir : SrtDirection) (oracle : ModelOracle) (rules : Rules)
    (sys : List Char) (b : Nat) (hb : 0 < b) (l : List SubtitleEntry) (k : Nat) :
    List.Forall₂ sameFrame l (runBatches dir oracle rules sys b k l) :=
  runBatches_sameFrame_aux dir oracle rules sys b hb l.length l le_rfl k

lemma correct_sameFrame (oracle : ModelOracle) (entries : List SubtitleEntry)
    (rules : Rules) (b : Nat) (hb : 0 < b) :
    List.Forall₂ sameFrame entries (correct_readings_batch oracle entries rules b) :=
  runBatches_sameFrame correctDir oracle rules _ b hb entries 0

lemma restore_sameFrame (oracle : ModelOracle) (entries : List SubtitleEntry)
    (rules : Rules) (b : Nat) (hb : 0 < b) :
    List.Forall₂ sameFrame entries (restore_readings_batch oracle entries rules b) :=
  runBatches_sameFrame restoreDir oracle rules _ b hb entries 0

lemma sameFrame_pointwise (l out : List SubtitleEntry)
    (h : List.Forall₂ sameFrame l out) :
    out.length = l.length ∧
      ∀ i, i < l.length →
        (out.getD i default).index = (l.getD i default).index ∧
        (out.getD i default).timestamp = (l.getD i default).timestamp := by
  have hlen : l.length = out.length := h.length_eq
  refine ⟨hlen.symm, ?_⟩
  intro i hi
  have hi' : i < out.length := by omega
  obtain ⟨-, hget⟩ := List.forall₂_iff_get.mp h
  have := hget i hi hi'
  rw [List.getD_eq_getElem l default hi, List.getD_eq_getElem out default hi']
  exact ⟨this.1, this.2⟩

/-! ### Failed batches fall back to the identity -/

lemma runBatch_none (dir : SrtDirection) (oracle : ModelOracle) (rules : Rules)
    (sys : List Char) (k : Nat) (batch : List SubtitleEntry)
    (h : oracle k sys (dir.mkUserPrompt (batchPayload batch)) = none) :
    runBatch dir oracle rules sys k batch = batch := by
  unfold runBatch
  by_cases hp : batchPayload batch = []
  · rw [if_pos hp]
  · rw [if_neg hp, h]

lemma chunks_length_pos_ne_nil (b : Nat) (l : List SubtitleEntry)
    (h : 0 < (chunks b l).length) : l ≠ [] := by
  intro h0
  subst h0
  rw [chunks_nil] at h
  simp at h

lemma runBatches_slice (dir : SrtDirection) (oracle : ModelOracle) (rules : Rules)
    (sys : List Char) (b : Nat) (hb : 0 < b) :
    ∀ (n j k : Nat) (l : List SubtitleEntry), l.length ≤ n →
      j < (chunks b l).length →
      oracle (k + j) sys (dir.mkUserPrompt (batchPayload ((l.drop (j * b)).take b))) = none →
      ((runBatches dir oracle rules sys b k l).drop (j * b)).take b
        = (l.drop (j * b)).take b := by
  intro n
  induction n with
  | zero =>
    intro j k l hl hj _
    have h0 : l = [] := List.length_eq_zero.mp (Nat.le_zero.mp hl)
    subst h0
    rw [chunks_nil] at hj
    simp at hj
  | succ n ih =>
    intro j k l hl hj hfail
    rcases l with _ | ⟨e, es⟩
    · rw [chunks_nil] at hj; simp at hj
    · rcases j with _ | j'
      · -- first batch of the loop
        simp only [Nat.zero_mul, List.drop_zero] at hfail ⊢
        rw [Nat.add_zero] at hfail
        rw [runBatches_cons, runBatch_none dir oracle rules sys k _ hfail]
        by_cases hbl : b ≤ (e :: es).length
        · rw [List.take_left' (by rw [List.length_take]; omega)]
        · have hdrop : es.drop (b - 1) = [] := by
            rw [drop_pred_cons b hb e es]
            exact List.drop_eq_nil_of_le (by omega)
          rw [hdrop, runBatches_nil, List.append_nil, List.take_take]
          simp
      · -- later batch: the first b entries are consumed
        have hlen2 : 0 < (chunks b ((e :: es).drop b)).length := by
          rw [chunks_cons] at hj
          simp only [List.length_cons] at hj
          rw [drop_pred_cons b hb e es] at hj
          omega
        have hbl : b < (e :: es).length := by
          have hne := chunks_length_pos_ne_nil b _ hlen2
          by_contra hcon
          exact hne (List.drop_eq_nil_of_le (by omega))
        have hA : (runBatch dir oracle rules sys k ((e :: es).take b)).length = b := by
          rw [runBatch_length, List.length_take]
          omega
        rw [runBatches_cons]
        rw [show (j' + 1) * b
              = (runBatch dir oracle rules sys k ((e :: es).take b)).length + j' * b from by
          rw [hA, Nat.succ_mul, Nat.add_comm]]
        rw [List.drop_append]
        rw [drop_pred_cons b hb e es]
        have harith : ∀ m : List SubtitleEntry, (m.drop b).drop (j' * b) = m.drop ((j' + 1) * b) := by
          intro m
          rw [List.drop_drop, Nat.succ_mul, Nat.add_comm]
        have hIH := ih j' (k + 1) ((e :: es).drop b)
          (by
            simp only [List.length_drop, List.length_cons] at *
            omega)
          (by
            rw [chunks_cons] at hj
            simp only [List.length_cons] at hj
            rw [drop_pred_cons b hb e es] at hj
            omega)
          (by
            rw [harith]
            rw [show k + 1 + j' = k + (j' + 1) from by omega]
            exact hfail)
        rw [hIH, harith]
        rw [hA, Nat.succ_mul, Nat.add_comm]

/-- C1 — Partial-failure isolation: for every document, rule set, positive
batch size and batch number `k`, if the model call made for batch `k`
returns a failure (the call raised, or its reply did not parse — the
`except` path, so no exception escapes the engine, which is total), then
the output of `correct_readings_batch` / `restore_readings_batch` still has
exactly one entry per input entry, and the slice of the output where batch
`k` lives is exactly batch `k`'s input entries, copied unchanged; all other
batches are processed normally by the sequential loop. -/
theorem c1_partial_failure_isolation (oracle : ModelOracle)
    (entries : List SubtitleEntry) (rules : Rules) (b : Nat) (hb : 0 < b)
    (k : Nat) (hk : k < numBatches b entries) :
    (oracle k (correctSystemPrompt entries rules)
        (correctUserPrompt (batchPayload ((entries.drop (k * b)).take b))) = none →
      (correct_readings_batch oracle entries rules b).length = entries.length ∧
      ((correct_readings_batch oracle entries rules b).drop (k * b)).take b
        = (entries.drop (k * b)).take b) ∧
    (oracle k (restoreSystemPrompt entries rules)
        (restoreUserPrompt (batchPayload ((entries.drop (k * b)).take b))) = none →
      (restore_readings_batch oracle entries rules b).length = entries.length ∧
      ((restore_readings_batch oracle entries rules b).drop (k * b)).take b
        = (entries.drop (k * b)).take b) := by
  constructor
  · intro hfail
    refine ⟨(correct_sameFrame oracle entries rules b hb).length_eq.symm, ?_⟩
    refine runBatches_slice correctDir oracle rules _ b hb entries.length k 0 entries
      le_rfl hk ?_
    rw [Nat.zero_add]
    exact hfail
  · intro hfail
    refine ⟨(restore_sameFrame oracle entries rules b hb).length_eq.symm, ?_⟩
    refine runBatches_slice restoreDir oracle rules _ b hb entries.length k 0 entries
      le_rfl hk ?_
    rw [Nat.zero_add]
    exact hfail

theorem c1_witness :
    (0 : Nat) < 1 ∧ 0 < numBatches 1 [(⟨1, ['t'], ['x']⟩ : SubtitleEntry)] ∧
    ((correct_readings_batch (fun _ _ _ => none) [⟨1, ['t'], ['x']⟩] ⟨[], [], [], []⟩ 1).length
        = [(⟨1, ['t'], ['x']⟩ : SubtitleEntry)].length ∧
      ((correct_readings_batch (fun _ _ _ => none) [⟨1, ['t'], ['x']⟩] ⟨[], [], [], []⟩ 1).drop (0 * 1)).take 1
        = (([(⟨1, ['t'], ['x']⟩ : SubtitleEntry)].drop (0 * 1)).take 1)) ∧
    ((restore_readings_batch (fun _ _ _ => none) [⟨1, ['t'], ['x']⟩] ⟨[], [], [], []⟩ 1).length
        = [(⟨1, ['t'], ['x']⟩ : SubtitleEntry)].length ∧
      ((restore_readings_batch (fun _ _ _ => none) [⟨1, ['t'], ['x']⟩] ⟨[], [], [], []⟩ 1).drop (0 * 1)).take 1
        = (([(⟨1, ['t'], ['x']⟩ : SubtitleEntry)].drop (0 * 1)).take 1)) := by
  have hnb : numBatches 1 [(⟨1, ['t'], ['x']⟩ : SubtitleEntry)] = 1 := by
    unfold numBatches
    rw [chunks_cons]
    rw [show List.drop (1 - 1) ([] : List SubtitleEntry) = [] from rfl, chunks_nil]
    rfl
  have happ := c1_partial_failure_isolation (fun _ _ _ => none) [⟨1, ['t'], ['x']⟩]
    ⟨[], [], [], []⟩ 1 (by decide) 0 (by rw [hnb]; decide)
  exact ⟨by decide, by rw [hnb]; decide, happ.1 rfl, happ.2 rfl⟩

/-! ### Partitioning facts -/

lemma runBatches_eq_seq_aux (dir : SrtDirection) (oracle : ModelOracle) (rules : Rules)
    (sys : List Char) (b : Nat) :
    ∀ (n : Nat) (l : List SubtitleEntry), l.length ≤ n → ∀ k,
      runBatches dir oracle rules sys b k l = seqProcess dir oracle rules sys k (chunks b l) := by
  intro n
  induction n with
  | zero =>
    intro l hl k
    have h0 : l = [] := List.length_eq_zero.mp (Nat.le_zero.mp hl)
    subst h0
    rw [runBatches_nil, chunks_nil]
    rfl
  | succ n ih =>
    intro l hl k
    rcases l with _ | ⟨e, es⟩
    · rw [runBatches_nil, chunks_nil]; rfl
    · rw [runBatches_cons, chunks_cons]
      show _ = runBatch dir oracle rules sys k ((e :: es).take b)
          ++ seqProcess dir oracle rules sys (k + 1) (chunks b (es.drop (b - 1)))
      rw [ih (es.drop (b - 1)) (by
        simp only [List.length_drop, List.length_cons] at *
        omega) (k + 1)]

lemma runBatches_eq_seq (dir : SrtDirection) (oracle : ModelOracle) (rules : Rules)
    (sys : List Char) (b : Nat) (l : List SubtitleEntry) (k : Nat) :
    runBatches dir oracle rules sys b k l = seqProcess dir oracle rules sys k (chunks b l) :=
  runBatches_eq_seq_aux dir oracle rules sys b l.length l le_rfl k

lemma chunks_le_aux (b : Nat) :
    ∀ (n : Nat) (l : List SubtitleEntry), l.length ≤ n → ∀ c ∈ chunks b l, c.length ≤ b := by
  intro n
  induction n with
  | zero =>
    intro l hl c hc
    have h0 : l = [] := List.length_eq_zero.mp (Nat.le_zero.mp hl)
    subst h0
    rw [chunks_nil] at hc
    simp at hc
  | succ n ih =>
    intro l hl c hc
    rcases l with _ | ⟨e, es⟩
    · rw [chunks_nil] at hc; simp at hc
    · rw [chunks_cons] at hc
      rcases List.mem_cons.mp hc with rfl | hc'
      · rw [List.length_take]; omega
      · refine ih (es.drop (b - 1)) ?_ c hc'
        simp only [List.length_drop, List.length_cons] at *
        omega

lemma chunks_flatten_aux (b : Nat) (hb : 0 < b) :
    ∀ (n : Nat) (l : List SubtitleEntry), l.length ≤ n → (chunks b l).flatten = l := by
  intro n
  induction n with
  | zero =>
    intro l hl
    have h0 : l = [] := List.length_eq_zero.mp (Nat.le_zero.mp hl)
    subst h0
    rw [chunks_nil]
    rfl
  | succ n ih =>
    intro l hl
    rcases l with _ | ⟨e, es⟩
    · rw [chunks_nil]; rfl
    · rw [chunks_cons, List.flatten_cons]
      rw [ih (es.drop (b - 1)) (by
        simp only [List.length_drop, List.length_cons] at *
        omega)]
      rw [drop_pred_cons b hb e es, List.take_append_drop]

lemma chunks_count_aux (b : Nat) (hb : 0 < b) :
    ∀ (n : Nat) (l : List SubtitleEntry), l.length ≤ n →
      (chunks b l).length = (l.length + b - 1) / b := by
  intro n
  induction n with
  | zero =>
    intro l hl
    have h0 : l = [] := List.length_eq_zero.mp (Nat.le_zero.mp hl)
    subst h0
    rw [chunks_nil]
    simp only [List.length_nil, List.length_nil, Nat.zero_add]
    rw [Nat.div_eq_of_lt (by omega)]
  | succ n ih =>
    intro l hl
    rcases l with _ | ⟨e, es⟩
    · rw [chunks_nil]
      simp only [List.length_nil, Nat.zero_add]
      rw [Nat.div_eq_of_lt (by omega)]
    · rw [chunks_cons]
      rw [List.length_cons, ih (es.drop (b - 1)) (by
        simp only [List.length_drop, List.length_cons] at *
        omega)]
      rw [drop_pred_cons b hb e es]
      simp only [List.length_drop, List.length_cons]
      rw [show es.length + 1 + b - 1 = es.length + b from by omega, Nat.add_div_right _ hb]
      by_cases hbl : b ≤ es.length + 1
      · rw [show es.length + 1 - b + b - 1 = es.length from by omega]
      · rw [show es.length + 1 - b + b - 1 = b - 1 from by omega]
        rw [Nat.div_eq_of_lt (by omega), Nat.div_eq_of_lt (by omega)]

lemma chunks_full_aux (b : Nat) (hb : 0 < b) :
    ∀ (n : Nat) (l : List SubtitleEntry), l.length ≤ n →
      ∀ i, i + 1 < (chunks b l).length → ((chunks b l).getD i []).length = b := by
  intro n
  induction n with
  | zero =>
    intro l hl i hi
    have h0 : l = [] := List.length_eq_zero.mp (Nat.le_zero.mp hl)
    subst h0
    rw [chunks_nil] at hi
    simp at hi
  | succ n ih =>
    intro l hl i hi
    rcases l with _ | ⟨e, es⟩
    · rw [chunks_nil] at hi; simp at hi
    · rw [chunks_cons] at hi ⊢
      rcases i with _ | i'
      · simp only [List.getD_cons_zero, List.length_take]
        have hlen2 : 0 < (chunks b (es.drop (b - 1))).length := by
          simp only [List.length_cons] at hi
          omega
        have hne := chunks_length_pos_ne_nil b _ hlen2
        rw [drop_pred_cons b hb e es] at hne
        have : b < (e :: es).length := by
          by_contra hcon
          exact hne (List.drop_eq_nil_of_le (by omega))
        omega
      · simp only [List.getD_cons_succ]
        refine ih (es.drop (b - 1)) (by
          simp only [List.length_drop, List.length_cons] at *
          omega) i' (by
          simp only [List.length_cons] at hi
          omega)

lemma chunks_shape_seven (es : List SubtitleEntry) (h7 : es.length = 7) :
    (chunks 5 es).map (fun c => c.length) = [5, 2] := by
  rcases es with _ | ⟨e, es'⟩
  · simp at h7
  · rw [chunks_cons]
    rw [show (5 : Nat) - 1 = 4 from rfl]
    have hd : es'.drop 4 = (e :: es').drop 5 := drop_pred_cons 5 (by decide) e es'
    rcases hdrop : (e :: es').drop 5 with _ | ⟨f, fs⟩
    · exfalso
      have hlen : ((e :: es').drop 5).length = 2 := by rw [List.length_drop, h7]
      rw [hdrop] at hlen
      simp at hlen
    · have hlen : (f :: fs).length = 2 := by
        rw [← hdrop, List.length_drop, h7]
      rw [hd, hdrop, chunks_cons]
      rw [show (5 : Nat) - 1 = 4 from rfl]
      have hfs : fs.drop 4 = [] := by
        refine List.drop_eq_nil_of_le ?_
        simp only [List.length_cons] at hlen
        omega
      rw [hfs, chunks_nil]
      simp only [List.map_cons, List.map_nil, List.length_take, h7, hlen]
      decide

/-- C5 — Batch partitioning: for every document and positive batch size the
engine (both directions) processes exactly the chunk partition of the
document — consecutive batches in original order, strictly sequentially with
ascending batch numbers; there are `ceil(n/b)` batches, each of at most `b`
entries, and every batch but possibly the last has exactly `b`; the batches
concatenate back to the document.  In particular a 7-entry document with
batch size 5 gives exactly 2 batches of sizes 5 and 2 and an output of 7
entries (in original order, by C2). -/
theorem c5_batch_partitioning (oracle : ModelOracle) (entries : List SubtitleEntry)
    (rules : Rules) (b : Nat) (hb : 0 < b) :
    (correct_readings_batch oracle entries rules b
        = seqProcess correctDir oracle rules (correctSystemPrompt entries rules) 0
            (chunks b entries) ∧
      restore_readings_batch oracle entries rules b
        = seqProcess restoreDir oracle rules (restoreSystemPrompt entries rules) 0
            (chunks b entries)) ∧
    numBatches b entries = (entries.length + b - 1) / b ∧
    (∀ c ∈ chunks b entries, c.length ≤ b) ∧
    (∀ i, i + 1 < numBatches b entries → ((chunks b entries).getD i []).length = b) ∧
    (chunks b entries).flatten = entries ∧
    (entries.length = 7 →
      (chunks 5 entries).map (fun c => c.length) = [5, 2] ∧
      (correct_readings_batch oracle entries rules 5).length = 7 ∧
      (restore_readings_batch oracle entries rules 5).length = 7) := by
  refine ⟨⟨?_, ?_⟩, ?_, ?_, ?_, ?_, ?_⟩
  · exact runBatches_eq_seq correctDir oracle rules _ b entries 0
  · exact runBatches_eq_seq restoreDir oracle rules _ b entries 0
  · exact chunks_count_aux b hb entries.length entries le_rfl
  · exact chunks_le_aux b entries.length entries le_rfl
  · exact chunks_full_aux b hb entries.length entries le_rfl
  · exact chunks_flatten_aux b hb entries.length entries le_rfl
  · intro h7
    refine ⟨chunks_shape_seven entries h7, ?_, ?_⟩
    · rw [← (correct_sameFrame oracle entries rules 5 (by decide)).length_eq, h7]
    · rw [← (restore_sameFrame oracle entries rules 5 (by decide)).length_eq, h7]

theorem c5_witness :
    (0 : Nat) < 5 ∧
    ((correct_readings_batch (fun _ _ _ => none)
        (List.replicate 7 (⟨1, ['t'], ['x']⟩ : SubtitleEntry)) ⟨[], [], [], []⟩ 5
        = seqProcess correctDir (fun _ _ _ => none) ⟨[], [], [], []⟩
            (correctSystemPrompt (List.replicate 7 ⟨1, ['t'], ['x']⟩) ⟨[], [], [], []⟩) 0
            (chunks 5 (List.replicate 7 ⟨1, ['t'], ['x']⟩)) ∧
      restore_readings_batch (fun _ _ _ => none)
        (List.replicate 7 (⟨1, ['t'], ['x']⟩ : SubtitleEntry)) ⟨[], [], [], []⟩ 5
        = seqProcess restoreDir (fun _ _ _ => none) ⟨[], [], [], []⟩
            (restoreSystemPrompt (List.replicate 7 ⟨1, ['t'], ['x']⟩) ⟨[], [], [], []⟩) 0
            (chunks 5 (List.replicate 7 ⟨1, ['t'], ['x']⟩))) ∧
     numBatches 5 (List.replicate 7 (⟨1, ['t'], ['x']⟩ : SubtitleEntry))
        = ((List.replicate 7 (⟨1, ['t'], ['x']⟩ : SubtitleEntry)).length + 5 - 1) / 5 ∧
     (∀ c ∈ chunks 5 (List.replicate 7 (⟨1, ['t'], ['x']⟩ : SubtitleEntry)), c.length ≤ 5) ∧
     (∀ i, i + 1 < numBatches 5 (List.replicate 7 (⟨1, ['t'], ['x']⟩ : SubtitleEntry)) →
        ((chunks 5 (List.replicate 7 (⟨1, ['t'], ['x']⟩ : SubtitleEntry))).getD i []).length = 5) ∧
     (chunks 5 (List.replicate 7 (⟨1, ['t'], ['x']⟩ : SubtitleEntry))).flatten
        = List.replicate 7 (⟨1, ['t'], ['x']⟩ : SubtitleEntry) ∧
     ((List.replicate 7 (⟨1, ['t'], ['x']⟩ : SubtitleEntry)).length = 7 →
       (chunks 5 (List.replicate 7 (⟨1, ['t'], ['x']⟩ : SubtitleEntry))).map (fun c => c.length)
          = [5, 2] ∧
       (correct_readings_batch (fun _ _ _ => none)
          (List.replicate 7 (⟨1, ['t'], ['x']⟩ : SubtitleEntry)) ⟨[], [], [], []⟩ 5).length = 7 ∧
       (restore_readings_batch (fun _ _ _ => none)
          (List.replicate 7 (⟨1, ['t'], ['x']⟩ : SubtitleEntry)) ⟨[], [], [], []⟩ 5).length = 7)) :=
  ⟨by decide,
   c5_batch_partitioning (fun _ _ _ => none) (List.replicate 7 ⟨1, ['t'], ['x']⟩)
     ⟨[], [], [], []⟩ 5 (by decide)⟩

/-! ### The merge step -/

lemma lookupKV_cons (kv : List Char × List Char) (rest : List (List Char × List Char))
    (k : List Char) :
    lookupKV (kv :: rest) k = if kv.1 = k then some kv.2 else lookupKV rest k := by
  rcases kv with ⟨k0, v0⟩
  rfl

lemma lookupKV_filter_keys (keys : List (List Char))
    (corrections : List (List Char × List Char)) (k : List Char) (hk : k ∈ keys) :
    lookupKV (corrections.filter (fun kv => decide (kv.1 ∈ keys))) k
      = lookupKV corrections k := by
  induction corrections with
  | nil => rfl
  | cons kv rest ih =>
    rw [lookupKV_cons]
    by_cases hmem : kv.1 ∈ keys
    · rw [List.filter_cons_of_pos (by simpa using hmem), lookupKV_cons, ih]
    · rw [List.filter_cons_of_neg (by simpa using hmem), ih]
      have hkk : kv.1 ≠ k := by
        intro h
        exact hmem (h ▸ hk)
      rw [if_neg hkk]

/-- C3 — Response merge correctness: when the model reply for a batch parses
as a JSON object (here a key/value list) the engine replaces exactly the
texts of entries whose string index occurs as a key — in the correction
direction the value additionally runs through the term-correction
substitution, in the restoration direction it is taken verbatim; entries
whose index is absent keep their original text with no error, and reply keys
matching no entry of the batch do not affect the result.  In particular a
batch of entries 1, 2, 3 with reply (1 ↦ X, 3 ↦ Z) and no term rules gives
texts X, original, Z through both top-level transforms. -/
theorem c3_response_merge (rules : Rules) (sys : List Char) (k : Nat)
    (batch : List SubtitleEntry) (corrections : List (List Char × List Char)) :
    (batchPayload batch ≠ [] →
      runBatch correctDir (fun _ _ _ => some corrections) rules sys k batch
        = batch.map (mergeEntry correctDir.post rules corrections) ∧
      runBatch restoreDir (fun _ _ _ => some corrections) rules sys k batch
        = batch.map (mergeEntry restoreDir.post rules corrections)) ∧
    (∀ e : SubtitleEntry, ∀ t, lookupKV corrections (intRepr e.index) = some t →
      mergeEntry correctDir.post rules corrections e
          = { e with text := apply_term_corrections t rules } ∧
      mergeEntry restoreDir.post rules corrections e = { e with text := t }) ∧
    (∀ e : SubtitleEntry, lookupKV corrections (intRepr e.index) = none →
      mergeEntry correctDir.post rules corrections e = e ∧
      mergeEntry restoreDir.post rules corrections e = e) ∧
    (batch.map (mergeEntry correctDir.post rules
        (corrections.filter (fun kv => decide (kv.1 ∈ batch.map (fun e => intRepr e.index)))))
        = batch.map (mergeEntry correctDir.post rules corrections) ∧
      batch.map (mergeEntry restoreDir.post rules
        (corrections.filter (fun kv => decide (kv.1 ∈ batch.map (fun e => intRepr e.index)))))
        = batch.map (mergeEntry restoreDir.post rules corrections)) ∧
    (correct_readings_batch
        (fun _ _ _ => some [("1".toList, "X".toList), ("3".toList, "Z".toList)])
        [⟨1, "t1".toList, "a".toList⟩, ⟨2, "t2".toList, "b".toList⟩, ⟨3, "t3".toList, "c".toList⟩]
        ⟨[], [], [], []⟩ 5
      = [⟨1, "t1".toList, "X".toList⟩, ⟨2, "t2".toList, "b".toList⟩,
         ⟨3, "t3".toList, "Z".toList⟩] ∧
     restore_readings_batch
        (fun _ _ _ => some [("1".toList, "X".toList), ("3".toList, "Z".toList)])
        [⟨1, "t1".toList, "a".toList⟩, ⟨2, "t2".toList, "b".toList⟩, ⟨3, "t3".toList, "c".toList⟩]
        ⟨[], [], [], []⟩ 5
      = [⟨1, "t1".toList, "X".toList⟩, ⟨2, "t2".toList, "b".toList⟩,
         ⟨3, "t3".toList, "Z".toList⟩]) := by
  refine ⟨?_, ?_, ?_, ⟨?_, ?_⟩, ⟨?_, ?_⟩⟩
  · intro hp
    constructor <;> (unfold runBatch; rw [if_neg hp])
  · intro e t h
    constructor <;> (unfold mergeEntry; rw [h])
    · rfl
    · rfl
  · intro e h
    constructor <;> (unfold mergeEntry; rw [h])
  · refine List.map_congr_left ?_
    intro e he
    unfold mergeEntry
    rw [lookupKV_filter_keys _ _ _ (List.mem_map_of_mem (fun x => intRepr x.index) he)]
  · refine List.map_congr_left ?_
    intro e he
    unfold mergeEntry
    rw [lookupKV_filter_keys _ _ _ (List.mem_map_of_mem (fun x => intRepr x.index) he)]
  · unfold correct_readings_batch
    rw [runBatches_cons,
      show List.drop (5 - 1)
          [(⟨2, "t2".toList, "b".toList⟩ : SubtitleEntry), ⟨3, "t3".toList, "c".toList⟩]
        = [] from rfl,
      runBatches_nil, List.append_nil]
    decide
  · unfold restore_readings_batch
    rw [runBatches_cons,
      show List.drop (5 - 1)
          [(⟨2, "t2".toList, "b".toList⟩ : SubtitleEntry), ⟨3, "t3".toList, "c".toList⟩]
        = [] from rfl,
      runBatches_nil, List.append_nil]
    decide

theorem c3_witness :
    batchPayload [(⟨1, "t".toList, "x".toList⟩ : SubtitleEntry)] ≠ [] ∧
    (runBatch correctDir (fun _ _ _ => some [("1".toList, "y".toList)]) ⟨[], [], [], []⟩ [] 0
        [⟨1, "t".toList, "x".toList⟩]
      = [(⟨1, "t".toList, "x".toList⟩ : SubtitleEntry)].map
          (mergeEntry correctDir.post ⟨[], [], [], []⟩ [("1".toList, "y".toList)]) ∧
     runBatch restoreDir (fun _ _ _ => some [("1".toList, "y".toList)]) ⟨[], [], [], []⟩ [] 0
        [⟨1, "t".toList, "x".toList⟩]
      = [(⟨1, "t".toList, "x".toList⟩ : SubtitleEntry)].map
          (mergeEntry restoreDir.post ⟨[], [], [], []⟩ [("1".toList, "y".toList)])) :=
  ⟨by decide,
   (c3_response_merge ⟨[], [], [], []⟩ [] 0 [⟨1, "t".toList, "x".toList⟩]
     [("1".toList, "y".toList)]).1 (by decide)⟩

/-! ### The empty-text exemption -/

lemma lookupKV_dictInsert (d : List (List Char × List Char)) (k' v k : List Char) :
    lookupKV (dictInsert d k' v) k = if k' = k then some v else lookupKV d k := by
  induction d with
  | nil => rfl
  | cons kv rest ih =>
    rcases kv with ⟨k0, v0⟩
    unfold dictInsert
    by_cases h0 : k0 = k'
    · rw [if_pos h0, lookupKV_cons, lookupKV_cons]
      by_cases hk : k' = k
      · rw [if_pos hk, if_pos hk]
      · rw [if_neg hk, if_neg hk, if_neg (by rw [h0]; exact hk)]
    · rw [if_neg h0, lookupKV_cons, lookupKV_cons]
      by_cases hk : k0 = k
      · rw [if_pos hk, if_pos hk, if_neg (fun h => h0 (hk.trans h.symm))]
      · rw [if_neg hk, if_neg hk, ih]

lemma payload_foldl_none (k : List Char) :
    ∀ (l : List SubtitleEntry) (d : List (List Char × List Char)),
      lookupKV d k = none → (∀ e' ∈ l, intRepr e'.index = k → pyStrip e'.text = []) →
      lookupKV
        (l.foldl
          (fun d e => if pyStrip e.text ≠ [] then dictInsert d (intRepr e.index) e.text else d)
          d) k = none := by
  intro l
  induction l with
  | nil =>
    intro d hd _
    exact hd
  | cons e rest ih =>
    intro d hd hall
    rw [List.foldl_cons]
    refine ih _ ?_ (fun e' he' => hall e' (List.mem_cons_of_mem e he'))
    by_cases hne : pyStrip e.text ≠ []
    · rw [if_pos hne, lookupKV_dictInsert]
      have hk : intRepr e.index ≠ k := fun h => hne (hall e (List.mem_cons_self e rest) h)
      rw [if_neg hk]
      exact hd
    · rw [if_neg hne]
      exact hd

lemma batchPayload_lookup_none (batch : List SubtitleEntry) (k : List Char)
    (hall : ∀ e' ∈ batch, intRepr e'.index = k → pyStrip e'.text = []) :
    lookupKV (batchPayload batch) k = none :=
  payload_foldl_none k batch [] rfl hall

lemma lookupKV_none_of_no_key (corrections : List (List Char × List Char)) (k : List Char)
    (h : ∀ kv ∈ corrections, kv.1 ≠ k) : lookupKV corrections k = none := by
  induction corrections with
  | nil => rfl
  | cons kv rest ih =>
    rw [lookupKV_cons, if_neg (h kv (List.mem_cons_self kv rest))]
    exact ih (fun kv' h' => h kv' (List.mem_cons_of_mem kv h'))

lemma payload_foldl_id :
    ∀ (l : List SubtitleEntry) (d : List (List Char × List Char)),
      (∀ e' ∈ l, pyStrip e'.text = []) →
      l.foldl
        (fun d e => if pyStrip e.text ≠ [] then dictInsert d (intRepr e.index) e.text else d)
        d = d := by
  intro l
  induction l with
  | nil =>
    intro d _
    rfl
  | cons e rest ih =>
    intro d hall
    rw [List.foldl_cons,
      if_neg (by
        intro hne
        exact hne (hall e (List.mem_cons_self e rest)))]
    exact ih d (fun e' he' => hall e' (List.mem_cons_of_mem e he'))

lemma batchPayload_nil_of_empty (batch : List SubtitleEntry)
    (hall : ∀ e' ∈ batch, pyStrip e'.text = []) : batchPayload batch = [] :=
  payload_foldl_id batch [] hall

lemma runBatch_all_empty (dir : SrtDirection) (oracle : ModelOracle) (rules : Rules)
    (sys : List Char) (k : Nat) (batch : List SubtitleEntry)
    (hall : ∀ e' ∈ batch, pyStrip e'.text = []) :
    runBatch dir oracle rules sys k batch = batch := by
  unfold runBatch
  rw [if_pos (batchPayload_nil_of_empty batch hall)]

lemma runBatches_all_empty_aux (dir : SrtDirection) (oracle : ModelOracle) (rules : Rules)
    (sys : List Char) (b : Nat) (hb : 0 < b) :
    ∀ (n : Nat) (l : List SubtitleEntry), l.length ≤ n →
      (∀ e' ∈ l, pyStrip e'.text = []) → ∀ k,
      runBatches dir oracle rules sys b k l = l := by
  intro n
  induction n with
  | zero =>
    intro l hl _ k
    have h0 : l = [] := List.length_eq_zero.mp (Nat.le_zero.mp hl)
    subst h0
    exact runBatches_nil dir oracle rules sys b k
  | succ n ih =>
    intro l hl hall k
    rcases l with _ | ⟨e, es⟩
    · exact runBatches_nil dir oracle rules sys b k
    · rw [runBatches_cons,
        runBatch_all_empty dir oracle rules sys k _
          (fun e' he' => hall e' (List.mem_of_mem_take he')),
        ih (es.drop (b - 1)) (by
          simp only [List.length_drop, List.length_cons] at *
          omega)
          (fun e' he' =>
            hall e' (List.mem_cons_of_mem e (List.mem_of_mem_drop he'))) (k + 1),
        drop_pred_cons b hb e es, List.take_append_drop]

/-- C4 counterexample — the claim's "even when the model's reply contains a
key equal to that entry's index, the returned text is ignored" is false: the
merge loop applies every reply key without re-checking emptiness, so a reply
carrying a key for an empty-text entry overwrites its text.  Here entry 2
has empty text and is indeed absent from the request payload, yet a reply
binding key "2" to "B" makes the output entry 2 text "B" ≠ "". -/
theorem c4_counterexample :
    pyStrip ([] : List Char) = [] ∧
    lookupKV
        (batchPayload
          [⟨1, "t1".toList, "hello".toList⟩, (⟨2, "t2".toList, []⟩ : SubtitleEntry)])
        (intRepr 2) = none ∧
    correct_readings_batch
        (fun _ _ _ => some [("1".toList, "A".toList), ("2".toList, "B".toList)])
        [⟨1, "t1".toList, "hello".toList⟩, ⟨2, "t2".toList, []⟩] ⟨[], [], [], []⟩ 5
      = [⟨1, "t1".toList, "A".toList⟩, ⟨2, "t2".toList, "B".toList⟩] ∧
    ("B".toList : List Char) ≠ [] := by
  refine ⟨rfl, by decide, ?_, by decide⟩
  unfold correct_readings_batch
  rw [runBatches_cons,
    show List.drop (5 - 1) [(⟨2, "t2".toList, []⟩ : SubtitleEntry)] = [] from rfl,
    runBatches_nil, List.append_nil]
  decide

/-- C4 (amended) — Empty-text exemption, request side only: an entry's
rendered index is absent from the request payload whenever every batch entry
carrying that rendered index has empty or whitespace-only text; under the
same condition the merge leaves the entry unchanged provided every reply key
is a payload key (as holds for any faithful reply — the exemption is
enforced only when building the request, not when merging, see the
counterexample); and a document consisting only of empty or whitespace-only
texts is returned unchanged by both directions with no model call (the
result does not depend on the oracle). -/
theorem c4_empty_text_exemption (batch entries : List SubtitleEntry) (rules : Rules)
    (corrections : List (List Char × List Char)) (e : SubtitleEntry)
    (oracle : ModelOracle) (b : Nat) :
    ((∀ e' ∈ batch, intRepr e'.index = intRepr e.index → pyStrip e'.text = []) →
      lookupKV (batchPayload batch) (intRepr e.index) = none) ∧
    ((∀ kv ∈ corrections, lookupKV (batchPayload batch) kv.1 ≠ none) →
      e ∈ batch →
      (∀ e' ∈ batch, intRepr e'.index = intRepr e.index → pyStrip e'.text = []) →
      mergeEntry correctDir.post rules corrections e = e ∧
      mergeEntry restoreDir.post rules corrections e = e) ∧
    ((∀ e' ∈ entries, pyStrip e'.text = []) → 0 < b →
      batchPayload entries = [] ∧
      correct_readings_batch oracle entries rules b = entries ∧
      restore_readings_batch oracle entries rules b = entries) := by
  refine ⟨?_, ?_, ?_⟩
  · intro hall
    exact batchPayload_lookup_none batch _ hall
  · intro hsub _ hall
    have hnone : lookupKV corrections (intRepr e.index) = none := by
      refine lookupKV_none_of_no_key corrections _ (fun kv hkv h => ?_)
      exact hsub kv hkv (h ▸ batchPayload_lookup_none batch _ hall)
    constructor <;> (unfold mergeEntry; rw [hnone])
  · intro hall hb
    refine ⟨batchPayload_nil_of_empty entries hall, ?_, ?_⟩
    · exact runBatches_all_empty_aux correctDir oracle rules _ b hb
        entries.length entries le_rfl hall 0
    · exact runBatches_all_empty_aux restoreDir oracle rules _ b hb
        entries.length entries le_rfl hall 0

theorem c4_witness :
    ((∀ e' ∈ [(⟨1, "t1".toList, "hello".toList⟩ : SubtitleEntry), ⟨2, "t2".toList, []⟩],
        intRepr e'.index = intRepr (⟨2, "t2".toList, []⟩ : SubtitleEntry).index →
        pyStrip e'.text = []) ∧
      lookupKV
        (batchPayload [(⟨1, "t1".toList, "hello".toList⟩ : SubtitleEntry), ⟨2, "t2".toList, []⟩])
        (intRepr (⟨2, "t2".toList, []⟩ : SubtitleEntry).index) = none) ∧
    ((∀ kv ∈ [("1".toList, "A".toList)],
        lookupKV
          (batchPayload
            [(⟨1, "t1".toList, "hello".toList⟩ : SubtitleEntry), ⟨2, "t2".toList, []⟩])
          kv.1 ≠ none) ∧
      (⟨2, "t2".toList, []⟩ : SubtitleEntry)
        ∈ [(⟨1, "t1".toList, "hello".toList⟩ : SubtitleEntry), ⟨2, "t2".toList, []⟩] ∧
      mergeEntry correctDir.post ⟨[], [], [], []⟩ [("1".toList, "A".toList)]
          ⟨2, "t2".toList, []⟩ = ⟨2, "t2".toList, []⟩ ∧
      mergeEntry restoreDir.post ⟨[], [], [], []⟩ [("1".toList, "A".toList)]
          ⟨2, "t2".toList, []⟩ = ⟨2, "t2".toList, []⟩) ∧
    ((∀ e' ∈ [(⟨1, "t".toList, [' ']⟩ : SubtitleEntry)], pyStrip e'.text = []) ∧
      (0 : Nat) < 5 ∧
      batchPayload [(⟨1, "t".toList, [' ']⟩ : SubtitleEntry)] = [] ∧
      correct_readings_batch (fun _ _ _ => some [("1".toList, "A".toList)])
        [⟨1, "t".toList, [' ']⟩] ⟨[], [], [], []⟩ 5 = [⟨1, "t".toList, [' ']⟩] ∧
      restore_readings_batch (fun _ _ _ => some [("1".toList, "A".toList)])
        [⟨1, "t".toList, [' ']⟩] ⟨[], [], [], []⟩ 5 = [⟨1, "t".toList, [' ']⟩]) :=
  ⟨⟨by decide,
    (c4_empty_text_exemption [⟨1, "t1".toList, "hello".toList⟩, ⟨2, "t2".toList, []⟩]
      [⟨1, "t".toList, [' ']⟩] ⟨[], [], [], []⟩ [("1".toList, "A".toList)]
      ⟨2, "t2".toList, []⟩ (fun _ _ _ => some [("1".toList, "A".toList)]) 5).1 (by decide)⟩,
   ⟨by decide, by decide,
    (c4_empty_text_exemption [⟨1, "t1".toList, "hello".toList⟩, ⟨2, "t2".toList, []⟩]
      [⟨1, "t".toList, [' ']⟩] ⟨[], [], [], []⟩ [("1".toList, "A".toList)]
      ⟨2, "t2".toList, []⟩ (fun _ _ _ => some [("1".toList, "A".toList)]) 5).2.1
      (by decide) (by decide) (by decide)⟩,
   ⟨by decide, by decide,
    (c4_empty_text_exemption [⟨1, "t1".toList, "hello".toList⟩, ⟨2, "t2".toList, []⟩]
      [⟨1, "t".toList, [' ']⟩] ⟨[], [], [], []⟩ [("1".toList, "A".toList)]
      ⟨2, "t2".toList, []⟩ (fun _ _ _ => some [("1".toList, "A".toList)]) 5).2.2
      (by decide) (by decide)⟩⟩

/-- C6 — Context truncation: both system prompts embed, between the
direction's fixed template pieces, exactly `full_context[:3000]` — the
space-joined entry texts cut hard at 3000 characters.  Slicing the prompt at
the template prefix recovers that string; when the full context has at most
3000 characters the embedded string is the whole context, and when it is
longer the embedded string has exactly 3000 characters and is a proper
prefix of the context (a character cut, independent of any token
structure). -/
theorem c6_context_truncation (entries : List SubtitleEntry) (rules : Rules) :
    (correctSystemPrompt entries rules
        = cSys1 ++ ((joinSep [' '] (entries.map (fun e => e.text))).take 3000 ++
            (cSys2 ++ (joinNl rules.context_hints ++ (cSys3 ++ (joinNl rules.custom_rules ++
              (cSys4 ++ (jsonDumpDict rules.reading_examples ++ cSys5))))))) ∧
      restoreSystemPrompt entries rules
        = rSys1 ++ ((joinSep [' '] (entries.map (fun e => e.text))).take 3000 ++
            (rSys2 ++ (joinNl rules.context_hints ++ (rSys3 ++
              (jsonDumpDict rules.reading_examples ++ rSys4)))))) ∧
    (((correctSystemPrompt entries rules).drop cSys1.length).take
        (min 3000 (get_full_context entries).length)
        = (get_full_context entries).take 3000 ∧
      ((restoreSystemPrompt entries rules).drop rSys1.length).take
        (min 3000 (get_full_context entries).length)
        = (get_full_context entries).take 3000) ∧
    ((get_full_context entries).length ≤ 3000 →
      (get_full_context entries).take 3000 = get_full_context entries) ∧
    (3000 < (get_full_context entries).length →
      ((get_full_context entries).take 3000).length = 3000 ∧
      ∃ rest, rest ≠ [] ∧
        get_full_context entries = (get_full_context entries).take 3000 ++ rest) := by
  refine ⟨⟨?_, ?_⟩, ⟨?_, ?_⟩, ?_, ?_⟩
  · simp only [correctSystemPrompt, get_full_context, List.append_assoc]
  · simp only [restoreSystemPrompt, get_full_context, List.append_assoc]
  · simp only [correctSystemPrompt, List.append_assoc]
    rw [List.drop_left, ← List.length_take, List.take_left]
  · simp only [restoreSystemPrompt, List.append_assoc]
    rw [List.drop_left, ← List.length_take, List.take_left]
  · intro h
    exact List.take_of_length_le h
  · intro h
    refine ⟨by rw [List.length_take]; omega,
      (get_full_context entries).drop 3000, ?_,
      (List.take_append_drop 3000 (get_full_context entries)).symm⟩
    intro h0
    have hlen := congrArg List.length h0
    rw [List.length_drop, List.length_nil] at hlen
    omega

theorem c6_witness :
    ((get_full_context [(⟨1, ['t'], ['a']⟩ : SubtitleEntry)]).length ≤ 3000 ∧
      (get_full_context [(⟨1, ['t'], ['a']⟩ : SubtitleEntry)]).take 3000
        = get_full_context [(⟨1, ['t'], ['a']⟩ : SubtitleEntry)]) ∧
    (3000 < (get_full_context
        [(⟨1, ['t'], List.replicate 3001 'a'⟩ : SubtitleEntry)]).length ∧
      ((get_full_context
          [(⟨1, ['t'], List.replicate 3001 'a'⟩ : SubtitleEntry)]).take 3000).length = 3000 ∧
      ∃ rest, rest ≠ [] ∧
        get_full_context [(⟨1, ['t'], List.replicate 3001 'a'⟩ : SubtitleEntry)]
          = (get_full_context
              [(⟨1, ['t'], List.replicate 3001 'a'⟩ : SubtitleEntry)]).take 3000 ++ rest) :=
  ⟨⟨by decide,
    (c6_context_truncation [⟨1, ['t'], ['a']⟩] ⟨[], [], [], []⟩).2.2.1 (by decide)⟩,
   ⟨by rw [show get_full_context [(⟨1, ['t'], List.replicate 3001 'a'⟩ : SubtitleEntry)]
          = List.replicate 3001 'a' from rfl, List.length_replicate]
       decide,
    (c6_context_truncation [⟨1, ['t'], List.replicate 3001 'a'⟩] ⟨[], [], [], []⟩).2.2.2
      (by rw [show get_full_context [(⟨1, ['t'], List.replicate 3001 'a'⟩ : SubtitleEntry)]
             = List.replicate 3001 'a' from rfl, List.length_replicate]
          decide)⟩⟩

/-! ### Rule mutation -/

lemma load_rules_some (r : Rules) : load_rules (some r) = r := rfl

lemma add_rule_hint_eq (key value : List Char) (stored : Option Rules) :
    add_rule RuleType.hint key value stored
      = if key ∈ (load_rules stored).context_hints then load_rules stored
        else { load_rules stored with
                context_hints := (load_rules stored).context_hints ++ [key] } := rfl

lemma add_rule_custom_eq (key value : List Char) (stored : Option Rules) :
    add_rule RuleType.custom key value stored
      = if key ∈ (load_rules stored).custom_rules then load_rules stored
        else { load_rules stored with
                custom_rules := (load_rules stored).custom_rules ++ [key] } := rfl

lemma remove_rule_term_eq (key : List Char) (stored : Option Rules) :
    remove_rule RuleType.term key stored
      = if (lookupKV (load_rules stored).term_corrections key).isSome then
          { load_rules stored with
            term_corrections := dictRemove (load_rules stored).term_corrections key }
        else load_rules stored := rfl

lemma remove_rule_hint_eq (key : List Char) (stored : Option Rules) :
    remove_rule RuleType.hint key stored
      = if key ∈ (load_rules stored).context_hints then
          { load_rules stored with
            context_hints := listRemove (load_rules stored).context_hints key }
        else load_rules stored := rfl

lemma remove_rule_custom_eq (key : List Char) (stored : Option Rules) :
    remove_rule RuleType.custom key stored
      = if key ∈ (load_rules stored).custom_rules then
          { load_rules stored with
            custom_rules := listRemove (load_rules stored).custom_rules key }
        else load_rules stored := rfl

lemma remove_rule_reading_eq (key : List Char) (stored : Option Rules) :
    remove_rule RuleType.reading key stored
      = if (lookupKV (load_rules stored).reading_examples key).isSome then
          { load_rules stored with
            reading_examples := dictRemove (load_rules stored).reading_examples key }
        else load_rules stored := rfl

lemma countOcc_append (x : List Char) (l₁ l₂ : List (List Char)) :
    countOcc x (l₁ ++ l₂) = countOcc x l₁ + countOcc x l₂ :=
  List.countP_append _ _ _

lemma countOcc_pos_of_mem (x : List Char) (l : List (List Char)) (h : x ∈ l) :
    0 < countOcc x l := by
  unfold countOcc
  rw [List.countP_pos_iff]
  exact ⟨x, h, by simp⟩

lemma countOcc_eq_zero_of_not_mem (x : List Char) (l : List (List Char)) (h : x ∉ l) :
    countOcc x l = 0 := by
  unfold countOcc
  rw [List.countP_eq_zero]
  intro a ha
  simp only [decide_eq_true_eq]
  intro hEq
  exact h (hEq ▸ ha)

lemma countOcc_singleton (x : List Char) : countOcc x [x] = 1 := by
  unfold countOcc
  simp

lemma addHint_mem (stored : Option Rules) (H v : List Char) :
    H ∈ (add_rule RuleType.hint H v stored).context_hints := by
  by_cases h : H ∈ (load_rules stored).context_hints
  · rw [add_rule_hint_eq, if_pos h]
    exact h
  · rw [add_rule_hint_eq, if_neg h]
    show H ∈ (load_rules stored).context_hints ++ [H]
    exact List.mem_append_right _ (by simp)

lemma addHint_idem (stored : Option Rules) (H v : List Char) :
    add_rule RuleType.hint H v (some (add_rule RuleType.hint H v stored))
      = add_rule RuleType.hint H v stored := by
  rw [add_rule_hint_eq H v (some (add_rule RuleType.hint H v stored)), load_rules_some,
    if_pos (addHint_mem stored H v)]

lemma addHint_count (stored : Option Rules) (H v : List Char)
    (hle : countOcc H (load_rules stored).context_hints ≤ 1) :
    countOcc H (add_rule RuleType.hint H v stored).context_hints = 1 := by
  by_cases h : H ∈ (load_rules stored).context_hints
  · rw [add_rule_hint_eq, if_pos h]
    have := countOcc_pos_of_mem H _ h
    omega
  · rw [add_rule_hint_eq, if_neg h]
    show countOcc H ((load_rules stored).context_hints ++ [H]) = 1
    rw [countOcc_append, countOcc_eq_zero_of_not_mem H _ h, countOcc_singleton]

lemma addCustom_mem (stored : Option Rules) (H v : List Char) :
    H ∈ (add_rule RuleType.custom H v stored).custom_rules := by
  by_cases h : H ∈ (load_rules stored).custom_rules
  · rw [add_rule_custom_eq, if_pos h]
    exact h
  · rw [add_rule_custom_eq, if_neg h]
    show H ∈ (load_rules stored).custom_rules ++ [H]
    exact List.mem_append_right _ (by simp)

lemma addCustom_idem (stored : Option Rules) (H v : List Char) :
    add_rule RuleType.custom H v (some (add_rule RuleType.custom H v stored))
      = add_rule RuleType.custom H v stored := by
  rw [add_rule_custom_eq H v (some (add_rule RuleType.custom H v stored)), load_rules_some,
    if_pos (addCustom_mem stored H v)]

lemma addCustom_count (stored : Option Rules) (H v : List Char)
    (hle : countOcc H (load_rules stored).custom_rules ≤ 1) :
    countOcc H (add_rule RuleType.custom H v stored).custom_rules = 1 := by
  by_cases h : H ∈ (load_rules stored).custom_rules
  · rw [add_rule_custom_eq, if_pos h]
    have := countOcc_pos_of_mem H _ h
    omega
  · rw [add_rule_custom_eq, if_neg h]
    show countOcc H ((load_rules stored).custom_rules ++ [H]) = 1
    rw [countOcc_append, countOcc_eq_zero_of_not_mem H _ h, countOcc_singleton]

/-- C9 — Rule-mutation idempotence and no-op semantics: adding the same hint
(or custom rule) twice — the second call loading what the first persisted —
leaves the field with exactly one occurrence of the key whenever the loaded
store respects the set-like invariant (at most one occurrence), and the
second call is in fact a no-op (the two-call result equals the one-call
result unconditionally); `remove_rule` for a key absent from the targeted
field returns the loaded rule set unchanged and still completes (it is a
total function); and every `add_rule`/`remove_rule` call persists the full
rule set wholesale — loading what it stored gives back exactly its whole
returned rule set. -/
theorem c9_rule_mutation (stored : Option Rules) (H k v : List Char) (rt : RuleType) :
    (countOcc H (load_rules stored).context_hints ≤ 1 →
      countOcc H
        (add_rule RuleType.hint H v (some (add_rule RuleType.hint H v stored))).context_hints
        = 1) ∧
    (countOcc H (load_rules stored).custom_rules ≤ 1 →
      countOcc H
        (add_rule RuleType.custom H v (some (add_rule RuleType.custom H v stored))).custom_rules
        = 1) ∧
    (add_rule RuleType.hint H v (some (add_rule RuleType.hint H v stored))
        = add_rule RuleType.hint H v stored ∧
      add_rule RuleType.custom H v (some (add_rule RuleType.custom H v stored))
        = add_rule RuleType.custom H v stored) ∧
    ((lookupKV (load_rules stored).term_corrections k = none →
        remove_rule RuleType.term k stored = load_rules stored) ∧
      (k ∉ (load_rules stored).context_hints →
        remove_rule RuleType.hint k stored = load_rules stored) ∧
      (k ∉ (load_rules stored).custom_rules →
        remove_rule RuleType.custom k stored = load_rules stored) ∧
      (lookupKV (load_rules stored).reading_examples k = none →
        remove_rule RuleType.reading k stored = load_rules stored)) ∧
    (load_rules (some (add_rule rt H v stored)) = add_rule rt H v stored ∧
      load_rules (some (remove_rule rt k stored)) = remove_rule rt k stored) := by
  refine ⟨?_, ?_, ⟨addHint_idem stored H v, addCustom_idem stored H v⟩,
    ⟨?_, ?_, ?_, ?_⟩, rfl, rfl⟩
  · intro hle
    rw [addHint_idem]
    exact addHint_count stored H v hle
  · intro hle
    rw [addCustom_idem]
    exact addCustom_count stored H v hle
  · intro h
    rw [remove_rule_term_eq, h]
    rfl
  · intro h
    rw [remove_rule_hint_eq, if_neg h]
  · intro h
    rw [remove_rule_custom_eq, if_neg h]
  · intro h
    rw [remove_rule_reading_eq, h]
    rfl

theorem c9_witness :
    (countOcc "h".toList (load_rules none).context_hints ≤ 1 ∧
      countOcc "h".toList
        (add_rule RuleType.hint "h".toList "v".toList
          (some (add_rule RuleType.hint "h".toList "v".toList none))).context_hints = 1) ∧
    (countOcc "h".toList (load_rules none).custom_rules ≤ 1 ∧
      countOcc "h".toList
        (add_rule RuleType.custom "h".toList "v".toList
          (some (add_rule RuleType.custom "h".toList "v".toList none))).custom_rules = 1) ∧
    (add_rule RuleType.hint "h".toList "v".toList
        (some (add_rule RuleType.hint "h".toList "v".toList none))
        = add_rule RuleType.hint "h".toList "v".toList none ∧
      add_rule RuleType.custom "h".toList "v".toList
        (some (add_rule RuleType.custom "h".toList "v".toList none))
        = add_rule RuleType.custom "h".toList "v".toList none) ∧
    (lookupKV (load_rules none).term_corrections "zzz".toList = none ∧
      remove_rule RuleType.term "zzz".toList none = load_rules none) ∧
    ("zzz".toList ∉ (load_rules none).context_hints ∧
      remove_rule RuleType.hint "zzz".toList none = load_rules none) ∧
    ("zzz".toList ∉ (load_rules none).custom_rules ∧
      remove_rule RuleType.custom "zzz".toList none = load_rules none) ∧
    (lookupKV (load_rules none).reading_examples "zzz".toList = none ∧
      remove_rule RuleType.reading "zzz".toList none = load_rules none) ∧
    (load_rules (some (add_rule RuleType.term "h".toList "v".toList none))
        = add_rule RuleType.term "h".toList "v".toList none ∧
      load_rules (some (remove_rule RuleType.term "zzz".toList none))
        = remove_rule RuleType.term "zzz".toList none) := by
  have T := c9_rule_mutation none "h".toList "zzz".toList "v".toList RuleType.term
  exact ⟨⟨by decide, T.1 (by decide)⟩, ⟨by decide, T.2.1 (by decide)⟩, T.2.2.1,
    ⟨by decide, T.2.2.2.1.1 (by decide)⟩, ⟨by decide, T.2.2.2.1.2.1 (by decide)⟩,
    ⟨by decide, T.2.2.2.1.2.2.1 (by decide)⟩, ⟨by decide, T.2.2.2.1.2.2.2 (by decide)⟩,
    T.2.2.2.2⟩

/-! ### Heap frame facts -/

lemma set_append_len (l : PyHeap) (x y : SubtitleEntry) :
    (l ++ [x]).set l.length y = l ++ [y] := by
  induction l with
  | nil => rfl
  | cons a l ih =>
    simp only [List.cons_append, List.length_cons, List.set_cons_succ, ih]

lemma hRead_append (h t : PyHeap) (a : Nat) (ha : a < h.length) :
    hRead (h ++ t) a = hRead h a := by
  unfold hRead
  exact List.getD_append h t default a ha

lemma mergeEntryH_some (post : Rules → List Char → List Char) (rules : Rules)
    (corrections : List (List Char × List Char)) (h : PyHeap) (a : Nat) (t : List Char)
    (hc : lookupKV corrections (intRepr (hRead h a).index) = some t) :
    mergeEntryH post rules corrections h a
      = (h ++ [{ hRead h a with text := post rules t }], h.length) := by
  simp only [mergeEntryH, hAlloc, hWrite, hc]
  rw [set_append_len]

lemma mergeEntryH_none (post : Rules → List Char → List Char) (rules : Rules)
    (corrections : List (List Char × List Char)) (h : PyHeap) (a : Nat)
    (hc : lookupKV corrections (intRepr (hRead h a).index) = none) :
    mergeEntryH post rules corrections h a = (h ++ [hRead h a], h.length) := by
  simp only [mergeEntryH, hAlloc, hc]

lemma mergeEntryH_frame (post : Rules → List Char → List Char) (rules : Rules)
    (corrections : List (List Char × List Char)) (h : PyHeap) (a : Nat) :
    ∃ t, (mergeEntryH post rules corrections h a).1 = h ++ t ∧
      (mergeEntryH post rules corrections h a).2 = h.length := by
  cases hc : lookupKV corrections (intRepr (hRead h a).index) with
  | some v =>
    rw [mergeEntryH_some post rules corrections h a v hc]
    exact ⟨[{ hRead h a with text := post rules v }], rfl, rfl⟩
  | none =>
    rw [mergeEntryH_none post rules corrections h a hc]
    exact ⟨[hRead h a], rfl, rfl⟩

lemma copyBatchH_nil (h : PyHeap) : copyBatchH h [] = (h, []) := rfl

lemma copyBatchH_cons (h : PyHeap) (a : Nat) (rest : List Nat) :
    copyBatchH h (a :: rest)
      = ((copyBatchH (h ++ [hRead h a]) rest).1,
          h.length :: (copyBatchH (h ++ [hRead h a]) rest).2) := rfl

lemma mergeBatchH_nil (post : Rules → List Char → List Char) (rules : Rules)
    (corrections : List (List Char × List Char)) (h : PyHeap) :
    mergeBatchH post rules corrections h [] = (h, []) := rfl

lemma mergeBatchH_cons (post : Rules → List Char → List Char) (rules : Rules)
    (corrections : List (List Char × List Char)) (h : PyHeap) (a : Nat) (rest : List Nat) :
    mergeBatchH post rules corrections h (a :: rest)
      = ((mergeBatchH post rules corrections
            (mergeEntryH post rules corrections h a).1 rest).1,
          (mergeEntryH post rules corrections h a).2 ::
            (mergeBatchH post rules corrections
              (mergeEntryH post rules corrections h a).1 rest).2) := rfl

lemma copyBatchH_frame :
    ∀ (batch : List Nat) (h : PyHeap),
      (∃ t, (copyBatchH h batch).1 = h ++ t) ∧
        ∀ a' ∈ (copyBatchH h batch).2, h.length ≤ a' := by
  intro batch
  induction batch with
  | nil =>
    intro h
    rw [copyBatchH_nil]
    exact ⟨⟨[], (List.append_nil h).symm⟩, by simp⟩
  | cons a rest ih =>
    intro h
    rw [copyBatchH_cons]
    obtain ⟨⟨t2, ht2⟩, hout⟩ := ih (h ++ [hRead h a])
    refine ⟨⟨[hRead h a] ++ t2, ?_⟩, ?_⟩
    · rw [ht2, List.append_assoc]
    · intro a' ha'
      rcases List.mem_cons.mp ha' with rfl | h'
      · exact le_rfl
      · have h1 := hout a' h'
        have hlen : h.length ≤ (h ++ [hRead h a]).length := by simp
        omega

lemma mergeBatchH_frame (post : Rules → List Char → List Char) (rules : Rules)
    (corrections : List (List Char × List Char)) :
    ∀ (batch : List Nat) (h : PyHeap),
      (∃ t, (mergeBatchH post rules corrections h batch).1 = h ++ t) ∧
        ∀ a' ∈ (mergeBatchH post rules corrections h batch).2, h.length ≤ a' := by
  intro batch
  induction batch with
  | nil =>
    intro h
    rw [mergeBatchH_nil]
    exact ⟨⟨[], (List.append_nil h).symm⟩, by simp⟩
  | cons a rest ih =>
    intro h
    rw [mergeBatchH_cons]
    obtain ⟨t1, ht1, ha'⟩ := mergeEntryH_frame post rules corrections h a
    obtain ⟨⟨t2, ht2⟩, hout⟩ := ih (mergeEntryH post rules corrections h a).1
    refine ⟨⟨t1 ++ t2, ?_⟩, ?_⟩
    · rw [ht2, ht1, List.append_assoc]
    · intro a' hmem
      rcases List.mem_cons.mp hmem with rfl | h'
      · omega
      · have h1 := hout a' h'
        have hlen : h.length ≤ (mergeEntryH post rules corrections h a).1.length := by
          rw [ht1, List.length_append]
          omega
        omega

lemma runBatchH_frame (dir : SrtDirection) (oracle : ModelOracle) (rules : Rules)
    (sys : List Char) (k : Nat) (h : PyHeap) (batch : List Nat) :
    (∃ t, (runBatchH dir oracle rules sys k h batch).1 = h ++ t) ∧
      ∀ a' ∈ (runBatchH dir oracle rules sys k h batch).2, h.length ≤ a' := by
  simp only [runBatchH]
  by_cases hp : batchPayload (batch.map (hRead h)) = []
  · rw [if_pos hp]
    exact copyBatchH_frame batch h
  · rw [if_neg hp]
    cases ho : oracle k sys (dir.mkUserPrompt (batchPayload (batch.map (hRead h)))) with
    | some corrections => exact mergeBatchH_frame dir.post rules corrections batch h
    | none => exact copyBatchH_frame batch h

lemma runBatchesH_nil (dir : SrtDirection) (oracle : ModelOracle) (rules : Rules)
    (sys : List Char) (b k : Nat) (h : PyHeap) :
    runBatchesH dir oracle rules sys b k h [] = (h, []) := by
  rw [runBatchesH]

lemma runBatchesH_cons (dir : SrtDirection) (oracle : ModelOracle) (rules : Rules)
    (sys : List Char) (b k : Nat) (h : PyHeap) (a : Nat) (as : List Nat) :
    runBatchesH dir oracle rules sys b k h (a :: as)
      = ((runBatchesH dir oracle rules sys b (k + 1)
            (runBatchH dir oracle rules sys k h ((a :: as).take b)).1 (as.drop (b - 1))).1,
          (runBatchH dir oracle rules sys k h ((a :: as).take b)).2 ++
            (runBatchesH dir oracle rules sys b (k + 1)
              (runBatchH dir oracle rules sys k h ((a :: as).take b)).1 (as.drop (b - 1))).2) := by
  rw [runBatchesH]

lemma runBatchesH_frame (dir : SrtDirection) (oracle : ModelOracle) (rules : Rules)
    (sys : List Char) (b : Nat) :
    ∀ (n : Nat) (l : List Nat) (h : PyHeap) (k : Nat), l.length ≤ n →
      (∃ t, (runBatchesH dir oracle rules sys b k h l).1 = h ++ t) ∧
        ∀ a' ∈ (runBatchesH dir oracle rules sys b k h l).2, h.length ≤ a' := by
  intro n
  induction n with
  | zero =>
    intro l h k hl
    have h0 : l = [] := List.length_eq_zero.mp (Nat.le_zero.mp hl)
    subst h0
    rw [runBatchesH_nil]
    exact ⟨⟨[], (List.append_nil h).symm⟩, by simp⟩
  | succ n ih =>
    intro l h k hl
    rcases l with _ | ⟨a, as⟩
    · rw [runBatchesH_nil]
      exact ⟨⟨[], (List.append_nil h).symm⟩, by simp⟩
    · rw [runBatchesH_cons]
      obtain ⟨⟨t1, ht1⟩, hout1⟩ := runBatchH_frame dir oracle rules sys k h ((a :: as).take b)
      obtain ⟨⟨t2, ht2⟩, hout2⟩ :=
        ih (as.drop (b - 1)) (runBatchH dir oracle rules sys k h ((a :: as).take b)).1 (k + 1)
          (by
            simp only [List.length_drop, List.length_cons] at *
            omega)
      refine ⟨⟨t1 ++ t2, ?_⟩, ?_⟩
      · rw [ht2, ht1, List.append_assoc]
      · intro a' ha'
        rcases List.mem_append.mp ha' with h' | h'
        · exact hout1 a' h'
        · have h1 := hout2 a' h'
          have hlen : h.length ≤ (runBatchH dir oracle rules sys k h ((a :: as).take b)).1.length := by
            rw [ht1, List.length_append]
            omega
          omega

/-- C10 — Input non-mutation: running either transform against the explicit
store only ever appends fresh cells to the heap (the output heap extends the
input heap), so after the call every address that existed before it — in
particular every input document entry — still reads exactly its pre-call
dict, with index, timestamp and text unchanged; and every output address is
a fresh cell allocated by the call (at or beyond the old heap end), so
every output entry is a copy, never an alias of an input entry. -/
theorem c10_input_non_mutation (oracle : ModelOracle) (h : PyHeap) (addrs : List Nat)
    (rules : Rules) (b : Nat) :
    ((∃ t, (correct_readings_batchH oracle h addrs rules b).1 = h ++ t) ∧
      (∃ t, (restore_readings_batchH oracle h addrs rules b).1 = h ++ t)) ∧
    (∀ a, a < h.length →
      hRead (correct_readings_batchH oracle h addrs rules b).1 a = hRead h a ∧
      hRead (restore_readings_batchH oracle h addrs rules b).1 a = hRead h a) ∧
    (∀ a' ∈ (correct_readings_batchH oracle h addrs rules b).2, h.length ≤ a') ∧
    (∀ a' ∈ (restore_readings_batchH oracle h addrs rules b).2, h.length ≤ a') := by
  obtain ⟨⟨t1, ht1⟩, hout1⟩ := runBatchesH_frame correctDir oracle rules
    (correctSystemPrompt (addrs.map (hRead h)) rules) b addrs.length addrs h 0 le_rfl
  obtain ⟨⟨t2, ht2⟩, hout2⟩ := runBatchesH_frame restoreDir oracle rules
    (restoreSystemPrompt (addrs.map (hRead h)) rules) b addrs.length addrs h 0 le_rfl
  refine ⟨⟨⟨t1, ht1⟩, ⟨t2, ht2⟩⟩, ?_, hout1, hout2⟩
  intro a ha
  constructor
  · show hRead (runBatchesH correctDir oracle rules
        (correctSystemPrompt (addrs.map (hRead h)) rules) b 0 h addrs).1 a = hRead h a
    rw [ht1]
    exact hRead_append h t1 a ha
  · show hRead (runBatchesH restoreDir oracle rules
        (restoreSystemPrompt (addrs.map (hRead h)) rules) b 0 h addrs).1 a = hRead h a
    rw [ht2]
    exact hRead_append h t2 a ha

theorem c10_witness :
    ((∃ t, (correct_readings_batchH (fun _ _ _ => some [("1".toList, "y".toList)])
          [⟨1, ['t'], ['x']⟩] [0] ⟨[], [], [], []⟩ 5).1
        = [(⟨1, ['t'], ['x']⟩ : SubtitleEntry)] ++ t) ∧
      (∃ t, (restore_readings_batchH (fun _ _ _ => some [("1".toList, "y".toList)])
          [⟨1, ['t'], ['x']⟩] [0] ⟨[], [], [], []⟩ 5).1
        = [(⟨1, ['t'], ['x']⟩ : SubtitleEntry)] ++ t)) ∧
    ((0 : Nat) < [(⟨1, ['t'], ['x']⟩ : SubtitleEntry)].length ∧
      hRead (correct_readings_batchH (fun _ _ _ => some [("1".toList, "y".toList)])
          [⟨1, ['t'], ['x']⟩] [0] ⟨[], [], [], []⟩ 5).1 0
        = hRead [(⟨1, ['t'], ['x']⟩ : SubtitleEntry)] 0 ∧
      hRead (restore_readings_batchH (fun _ _ _ => some [("1".toList, "y".toList)])
          [⟨1, ['t'], ['x']⟩] [0] ⟨[], [], [], []⟩ 5).1 0
        = hRead [(⟨1, ['t'], ['x']⟩ : SubtitleEntry)] 0) := by
  have T := c10_input_non_mutation (fun _ _ _ => some [("1".toList, "y".toList)])
    [⟨1, ['t'], ['x']⟩] [0] ⟨[], [], [], []⟩ 5
  exact ⟨T.1, by decide, (T.2.1 0 (by decide)).1, (T.2.1 0 (by decide)).2⟩

/-! ### The full reply space and its string-valued fragment -/

lemma lookupJ_lift (r : List (List Char × List Char)) (k : List Char) :
    lookupJ (liftReply r) k = (lookupKV r k).map JVal.jstr := by
  induction r with
  | nil => rfl
  | cons kv rest ih =>
    rcases kv with ⟨k0, v0⟩
    show (if k0 = k then some (JVal.jstr v0) else lookupJ (liftReply rest) k)
        = Option.map JVal.jstr (if k0 = k then some v0 else lookupKV rest k)
    by_cases h : k0 = k
    · rw [if_pos h, if_pos h]
      rfl
    · rw [if_neg h, if_neg h, ih]

lemma mergeRunJ_nil (post : Rules → List Char → List Char) (rules : Rules)
    (corrections : List (List Char × JVal)) :
    mergeRunJ post rules corrections [] = ([], false) := rfl

lemma mergeRunJ_cons_str (post : Rules → List Char → List Char) (rules : Rules)
    (corrections : List (List Char × JVal)) (e : SubtitleEntry) (rest : List SubtitleEntry)
    (t : List Char) (hc : lookupJ corrections (intRepr e.index) = some (JVal.jstr t)) :
    mergeRunJ post rules corrections (e :: rest)
      = ({ e with text := post rules t } :: (mergeRunJ post rules corrections rest).1,
          (mergeRunJ post rules corrections rest).2) := by
  simp only [mergeRunJ, hc]

lemma mergeRunJ_cons_int (post : Rules → List Char → List Char) (rules : Rules)
    (corrections : List (List Char × JVal)) (e : SubtitleEntry) (rest : List SubtitleEntry)
    (n : Int) (hc : lookupJ corrections (intRepr e.index) = some (JVal.jint n)) :
    mergeRunJ post rules corrections (e :: rest) = ([], true) := by
  simp only [mergeRunJ, hc]

lemma mergeRunJ_cons_none (post : Rules → List Char → List Char) (rules : Rules)
    (corrections : List (List Char × JVal)) (e : SubtitleEntry) (rest : List SubtitleEntry)
    (hc : lookupJ corrections (intRepr e.index) = none) :
    mergeRunJ post rules corrections (e :: rest)
      = (e :: (mergeRunJ post rules corrections rest).1,
          (mergeRunJ post rules corrections rest).2) := by
  simp only [mergeRunJ, hc]

lemma mergeRunJ_lift (post : Rules → List Char → List Char) (rules : Rules)
    (r : List (List Char × List Char)) :
    ∀ batch, mergeRunJ post rules (liftReply r) batch
      = (batch.map (mergeEntry post rules r), false) := by
  intro batch
  induction batch with
  | nil => rfl
  | cons e rest ih =>
    cases hc : lookupKV r (intRepr e.index) with
    | some t =>
      have hcl : lookupJ (liftReply r) (intRepr e.index) = some (JVal.jstr t) := by
        rw [lookupJ_lift, hc]
        rfl
      have hme : mergeEntry post rules r e = { e with text := post rules t } := by
        unfold mergeEntry
        rw [hc]
      rw [mergeRunJ_cons_str post rules (liftReply r) e rest t hcl, ih, List.map_cons, hme]
    | none =>
      have hcl : lookupJ (liftReply r) (intRepr e.index) = none := by
        rw [lookupJ_lift, hc]
        rfl
      have hme : mergeEntry post rules r e = e := by
        unfold mergeEntry
        rw [hc]
      rw [mergeRunJ_cons_none post rules (liftReply r) e rest hcl, ih, List.map_cons, hme]

lemma runBatchJ_lift (dir : SrtDirection) (o : ModelOracle) (rules : Rules)
    (sys : List Char) (k : Nat) (batch : List SubtitleEntry) :
    runBatchJ dir (liftOracle o) rules sys k batch = runBatch dir o rules sys k batch := by
  simp only [runBatchJ, runBatch, liftOracle]
  by_cases hp : batchPayload batch = []
  · rw [if_pos hp, if_pos hp]
  · rw [if_neg hp, if_neg hp]
    cases ho : o k sys (dir.mkUserPrompt (batchPayload batch)) with
    | none => rfl
    | some r =>
      rw [Option.map_some']
      show (if (mergeRunJ dir.post rules (liftReply r) batch).2 = true then
              (mergeRunJ dir.post rules (liftReply r) batch).1 ++ batch
            else (mergeRunJ dir.post rules (liftReply r) batch).1)
          = batch.map (mergeEntry dir.post rules r)
      rw [mergeRunJ_lift]
      rfl

lemma runBatchesJ_nil (dir : SrtDirection) (oracle : ModelOracleJ) (rules : Rules)
    (sys : List Char) (b k : Nat) : runBatchesJ dir oracle rules sys b k [] = [] := by
  rw [runBatchesJ]

lemma runBatchesJ_cons (dir : SrtDirection) (oracle : ModelOracleJ) (rules : Rules)
    (sys : List Char) (b k : Nat) (e : SubtitleEntry) (es : List SubtitleEntry) :
    runBatchesJ dir oracle rules sys b k (e :: es)
      = runBatchJ dir oracle rules sys k ((e :: es).take b) ++
        runBatchesJ dir oracle rules sys b (k + 1) (es.drop (b - 1)) := by
  rw [runBatchesJ]

lemma runBatchesJ_lift_aux (dir : SrtDirection) (o : ModelOracle) (rules : Rules)
    (sys : List Char) (b : Nat) :
    ∀ (n : Nat) (l : List SubtitleEntry), l.length ≤ n → ∀ k,
      runBatchesJ dir (liftOracle o) rules sys b k l = runBatches dir o rules sys b k l := by
  intro n
  induction n with
  | zero =>
    intro l hl k
    have h0 : l = [] := List.length_eq_zero.mp (Nat.le_zero.mp hl)
    subst h0
    rw [runBatchesJ_nil, runBatches_nil]
  | succ n ih =>
    intro l hl k
    rcases l with _ | ⟨e, es⟩
    · rw [runBatchesJ_nil, runBatches_nil]
    · rw [runBatchesJ_cons, runBatches_cons, runBatchJ_lift,
        ih (es.drop (b - 1)) (by
          simp only [List.length_drop, List.length_cons] at *
          omega) (k + 1)]

lemma runBatchesJ_lift (dir : SrtDirection) (o : ModelOracle) (rules : Rules)
    (sys : List Char) (b : Nat) (l : List SubtitleEntry) (k : Nat) :
    runBatchesJ dir (liftOracle o) rules sys b k l = runBatches dir o rules sys b k l :=
  runBatchesJ_lift_aux dir o rules sys b l.length l le_rfl k

/-- C2 counterexample — the claim's "every behaviour of the model (including
arbitrary replies)" is false of the program: a reply that parses as a JSON
object with a non-string value (here `1 ↦ "A", 2 ↦ 5`) makes the merge loop
append the merged entry 1, then raise on entry 2's integer value; the
`except` handler re-extends the output with the whole batch, so a 2-entry
document yields 3 output entries in both directions — the count is not
preserved, and the entry at position 1 no longer carries input position 1's
index. -/
theorem c2_counterexample :
    correct_readings_batchJ
        (fun _ _ _ => some [("1".toList, JVal.jstr "A".toList), ("2".toList, JVal.jint 5)])
        [⟨1, "t1".toList, "a".toList⟩, ⟨2, "t2".toList, "b".toList⟩] ⟨[], [], [], []⟩ 5
      = [⟨1, "t1".toList, "A".toList⟩, ⟨1, "t1".toList, "a".toList⟩,
         ⟨2, "t2".toList, "b".toList⟩] ∧
    restore_readings_batchJ
        (fun _ _ _ => some [("1".toList, JVal.jstr "A".toList), ("2".toList, JVal.jint 5)])
        [⟨1, "t1".toList, "a".toList⟩, ⟨2, "t2".toList, "b".toList⟩] ⟨[], [], [], []⟩ 5
      = [⟨1, "t1".toList, "A".toList⟩, ⟨1, "t1".toList, "a".toList⟩,
         ⟨2, "t2".toList, "b".toList⟩] ∧
    ¬((correct_readings_batchJ
          (fun _ _ _ => some [("1".toList, JVal.jstr "A".toList), ("2".toList, JVal.jint 5)])
          [⟨1, "t1".toList, "a".toList⟩, ⟨2, "t2".toList, "b".toList⟩] ⟨[], [], [], []⟩ 5).length
        = ([⟨1, "t1".toList, "a".toList⟩,
            (⟨2, "t2".toList, "b".toList⟩ : SubtitleEntry)] : List SubtitleEntry).length) ∧
    ¬(((correct_readings_batchJ
          (fun _ _ _ => some [("1".toList, JVal.jstr "A".toList), ("2".toList, JVal.jint 5)])
          [⟨1, "t1".toList, "a".toList⟩, ⟨2, "t2".toList, "b".toList⟩]
          ⟨[], [], [], []⟩ 5).getD 1 default).index
        = (([⟨1, "t1".toList, "a".toList⟩,
             (⟨2, "t2".toList, "b".toList⟩ : SubtitleEntry)] :
              List SubtitleEntry).getD 1 default).index) := by
  have h1 : correct_readings_batchJ
      (fun _ _ _ => some [("1".toList, JVal.jstr "A".toList), ("2".toList, JVal.jint 5)])
      [⟨1, "t1".toList, "a".toList⟩, ⟨2, "t2".toList, "b".toList⟩] ⟨[], [], [], []⟩ 5
      = [⟨1, "t1".toList, "A".toList⟩, ⟨1, "t1".toList, "a".toList⟩,
         ⟨2, "t2".toList, "b".toList⟩] := by
    unfold correct_readings_batchJ
    rw [runBatchesJ_cons,
      show List.drop (5 - 1) [(⟨2, "t2".toList, "b".toList⟩ : SubtitleEntry)] = [] from rfl,
      runBatchesJ_nil, List.append_nil]
    decide
  have h2 : restore_readings_batchJ
      (fun _ _ _ => some [("1".toList, JVal.jstr "A".toList), ("2".toList, JVal.jint 5)])
      [⟨1, "t1".toList, "a".toList⟩, ⟨2, "t2".toList, "b".toList⟩] ⟨[], [], [], []⟩ 5
      = [⟨1, "t1".toList, "A".toList⟩, ⟨1, "t1".toList, "a".toList⟩,
         ⟨2, "t2".toList, "b".toList⟩] := by
    unfold restore_readings_batchJ
    rw [runBatchesJ_cons,
      show List.drop (5 - 1) [(⟨2, "t2".toList, "b".toList⟩ : SubtitleEntry)] = [] from rfl,
      runBatchesJ_nil, List.append_nil]
    decide
  refine ⟨h1, h2, ?_, ?_⟩
  · rw [h1]
    decide
  · rw [h1]
    decide

/-- C2 (amended) — Order/count/field preservation within the parsed-reply
space: for every input document and every behaviour of the model that
either fails (the request raises, or the reply is not a JSON object) or
replies with a JSON object whose values are all strings, the engine over
the full reply space coincides with the restricted string engine, and the
output of `correct_readings_batch` / `restore_readings_batch` has exactly
as many entries as the input, in the same order, with every position
keeping the input entry's index and timestamp — only the text can change.
(For a reply object carrying a non-string value the merge loop raises after
partial appends and the batch is re-extended, so preservation fails — see
the counterexample.) -/
theorem c2_preservation_for_parsed_string_replies (o : ModelOracle)
    (entries : List SubtitleEntry) (rules : Rules) (b : Nat) (hb : 0 < b) :
    (correct_readings_batchJ (liftOracle o) entries rules b
        = correct_readings_batch o entries rules b ∧
      restore_readings_batchJ (liftOracle o) entries rules b
        = restore_readings_batch o entries rules b) ∧
    ((correct_readings_batchJ (liftOracle o) entries rules b).length = entries.length ∧
      ∀ i, i < entries.length →
        ((correct_readings_batchJ (liftOracle o) entries rules b).getD i default).index
            = (entries.getD i default).index ∧
        ((correct_readings_batchJ (liftOracle o) entries rules b).getD i default).timestamp
            = (entries.getD i default).timestamp) ∧
    ((restore_readings_batchJ (liftOracle o) entries rules b).length = entries.length ∧
      ∀ i, i < entries.length →
        ((restore_readings_batchJ (liftOracle o) entries rules b).getD i default).index
            = (entries.getD i default).index ∧
        ((restore_readings_batchJ (liftOracle o) entries rules b).getD i default).timestamp
            = (entries.getD i default).timestamp) := by
  have hc : correct_readings_batchJ (liftOracle o) entries rules b
      = correct_readings_batch o entries rules b :=
    runBatchesJ_lift correctDir o rules (correctSystemPrompt entries rules) b entries 0
  have hr : restore_readings_batchJ (liftOracle o) entries rules b
      = restore_readings_batch o entries rules b :=
    runBatchesJ_lift restoreDir o rules (restoreSystemPrompt entries rules) b entries 0
  refine ⟨⟨hc, hr⟩, ?_, ?_⟩
  · rw [hc]
    exact sameFrame_pointwise entries _ (correct_sameFrame o entries rules b hb)
  · rw [hr]
    exact sameFrame_pointwise entries _ (restore_sameFrame o entries rules b hb)

theorem c2_preservation_witness :
    (0 : Nat) < 5 ∧
    ((correct_readings_batchJ (liftOracle (fun _ _ _ => none))
          [⟨1, ['t'], ['x']⟩] ⟨[], [], [], []⟩ 5
        = correct_readings_batch (fun _ _ _ => none) [⟨1, ['t'], ['x']⟩] ⟨[], [], [], []⟩ 5 ∧
      restore_readings_batchJ (liftOracle (fun _ _ _ => none))
          [⟨1, ['t'], ['x']⟩] ⟨[], [], [], []⟩ 5
        = restore_readings_batch (fun _ _ _ => none) [⟨1, ['t'], ['x']⟩] ⟨[], [], [], []⟩ 5) ∧
    ((correct_readings_batchJ (liftOracle (fun _ _ _ => none))
          [⟨1, ['t'], ['x']⟩] ⟨[], [], [], []⟩ 5).length
        = [(⟨1, ['t'], ['x']⟩ : SubtitleEntry)].length ∧
      ∀ i, i < [(⟨1, ['t'], ['x']⟩ : SubtitleEntry)].length →
        ((correct_readings_batchJ (liftOracle (fun _ _ _ => none))
            [⟨1, ['t'], ['x']⟩] ⟨[], [], [], []⟩ 5).getD i default).index
            = ([(⟨1, ['t'], ['x']⟩ : SubtitleEntry)].getD i default).index ∧
        ((correct_readings_batchJ (liftOracle (fun _ _ _ => none))
            [⟨1, ['t'], ['x']⟩] ⟨[], [], [], []⟩ 5).getD i default).timestamp
            = ([(⟨1, ['t'], ['x']⟩ : SubtitleEntry)].getD i default).timestamp) ∧
    ((restore_readings_batchJ (liftOracle (fun _ _ _ => none))
          [⟨1, ['t'], ['x']⟩] ⟨[], [], [], []⟩ 5).length
        = [(⟨1, ['t'], ['x']⟩ : SubtitleEntry)].length ∧
      ∀ i, i < [(⟨1, ['t'], ['x']⟩ : SubtitleEntry)].length →
        ((restore_readings_batchJ (liftOracle (fun _ _ _ => none))
            [⟨1, ['t'], ['x']⟩] ⟨[], [], [], []⟩ 5).getD i default).index
            = ([(⟨1, ['t'], ['x']⟩ : SubtitleEntry)].getD i default).index ∧
        ((restore_readings_batchJ (liftOracle (fun _ _ _ => none))
            [⟨1, ['t'], ['x']⟩] ⟨[], [], [], []⟩ 5).getD i default).timestamp
            = ([(⟨1, ['t'], ['x']⟩ : SubtitleEntry)].getD i default).timestamp)) :=
  ⟨by decide,
   c2_preservation_for_parsed_string_replies (fun _ _ _ => none) [⟨1, ['t'], ['x']⟩]
     ⟨[], [], [], []⟩ 5 (by decide)⟩
